import Mathlib

/-!
# Verification of the az-reader ops orchestration engine

Shallow embedding of the Python orchestration code under `src/ops/ops/`
(config patcher, command executor replay logic, identity resolver,
registry endpoint resolution, token registry, stack lifecycle ordering),
together with proofs and refutations of the specification's claims.

Python text is modelled as `List Char` (`Str`), with `'\n'` as the line
separator; Python `str.strip` is modelled over the ASCII whitespace
characters.
-/

set_option maxHeartbeats 1000000

namespace AzReader

/-- Python strings are modelled as lists of characters. -/
abbrev Str := List Char

/-- ASCII whitespace, modelling the characters Python `str.strip` removes. -/
def pyIsSpace (c : Char) : Bool :=
  c = ' ' || c = '\t' || c = '\n' || c = '\r' || c = '\x0b' || c = '\x0c'

/-- Python `str.lstrip()`. -/
def lstrip (s : Str) : Str := s.dropWhile pyIsSpace

/-- Python `str.rstrip()`. -/
def rstrip (s : Str) : Str := (s.reverse.dropWhile pyIsSpace).reverse

/-- Python `str.strip()`. -/
def pstrip (s : Str) : Str := rstrip (lstrip s)

/-- Split a character list on a separator character; always returns one
piece more than the number of separators (like Python `str.split(sep)`). -/
def splitOnC (sep : Char) : Str → List Str
  | [] => [[]]
  | c :: cs =>
    if c = sep then [] :: splitOnC sep cs
    else
      match splitOnC sep cs with
      | [] => [[c]]
      | p :: ps => (c :: p) :: ps

/-- Python `str.splitlines()` for text whose only line separator is `'\n'`:
split on newlines, dropping the empty trailing piece produced by a final
newline, and returning `[]` on the empty string. -/
def pySplitlines (s : Str) : List Str :=
  if s = [] then []
  else if s.getLast? = some '\n' then (splitOnC '\n' s).dropLast
  else splitOnC '\n' s

/-- `stripped.startswith("#")` from `_set_tfvar_value`. -/
def startsHash (s : Str) : Bool := s.head? = some '#'

/-- The skip condition of `_set_tfvar_value`'s scan loop:
`not stripped or stripped.startswith("#") or "=" not in stripped`. -/
def isSkipLine (line : Str) : Bool :=
  let st := pstrip line
  st.isEmpty || startsHash st || !(st.contains '=')

/-- `stripped.split("=", 1)[0].strip()` from `_set_tfvar_value`. -/
def lineLhs (line : Str) : Str :=
  pstrip ((pstrip line).takeWhile (fun c => c ≠ '='))

/-- A line that the scan loop of `_set_tfvar_value` recognizes as an
assignment to `key`: it is not skipped and its trimmed left-hand side
equals `key`. -/
def assignsKey (key line : Str) : Bool :=
  !(isSkipLine line) && lineLhs line == key

/-- `line[: len(line) - len(line.lstrip())]`: the leading whitespace of a line. -/
def leadingWS (line : Str) : Str := line.takeWhile pyIsSpace

/-- `f'{key} = "{value}"'`: the replacement line built by `_set_tfvar_value`. -/
def mkAssign (key value : Str) : Str :=
  key ++ ' ' :: '=' :: ' ' :: '"' :: (value ++ ['"'])

/-- The line-level loop of `_set_tfvar_value`: rewrite the first line
assigning `key` (keeping its indentation), or append `nl` at the end. -/
def upsertLines (key nl : Str) : List Str → List Str
  | [] => [nl]
  | l :: ls =>
    if assignsKey key l then (leadingWS l ++ nl) :: ls
    else l :: upsertLines key nl ls

/-- Python `sep.join(lines)` for a one-character separator
(`"\n".join` in `_set_tfvar_value`, `";".join` in `_save_tokens`). -/
def joinWith (sep : Char) : List Str → Str
  | [] => []
  | [l] => l
  | l :: l2 :: ls => l ++ sep :: joinWith sep (l2 :: ls)

/-- `updated.endswith("\n")`. -/
def endsNL (s : Str) : Bool := s.getLast? == some '\n'

/-- The trailing-newline normalization at the end of `_set_tfvar_value`. -/
def ensureNL (s : Str) : Str := if endsNL s then s else s ++ ['\n']

/-- `_set_tfvar_value(content, key, value)` from `_deploy_common.py`:
the Config Patcher's `upsert`. -/
def set_tfvar_value (content key value : Str) : Str :=
  ensureNL (joinWith '\n' (upsertLines key (mkAssign key value) (pySplitlines content)))

/-- A whitespace-only character list (an indentation prefix). -/
def allWS (w : Str) : Prop := ∀ c ∈ w, pyIsSpace c = true

/-- Keys for which the line `key = "value"` generated by `_set_tfvar_value`
is itself recognized by the scan loop as an assignment to `key`:
nonempty, trimmed, free of `=` and newline, and not starting a comment. -/
def validKey (key : Str) : Bool :=
  !key.isEmpty && (pstrip key == key) && !(decide ('=' ∈ key)) &&
    !(decide ('\n' ∈ key)) && !(key.head? == some '#')

/-! ### Command Executor: the capture path of `run_logged` (`_utils.py`) -/

/-- The echo policy of `run_logged`. -/
inductive Echo
  | always
  | on_error
  | never
deriving DecidableEq

/-- One of the caller's two standard streams. -/
inductive StdStream
  | out
  | err
deriving DecidableEq

/-- A write of one line to one of the caller's standard streams. -/
abbrev TermWrite := StdStream × String

/-- The lines the two `_reader` threads forward live while the process runs.
The `interleaving` parameter stands for the (scheduler-dependent) order in
which the two readers observe their buffered lines: under `always` each
line is written to its stream as it arrives, under `on_error` and `never`
the readers never write (`if echo == "always"` in `_reader`). -/
def liveWrites (echo : Echo) (interleaving : List TermWrite) : List TermWrite :=
  if echo = Echo.always then interleaving else []

/-- The replay block of `run_logged` after `proc.wait()` and both joins:
`if echo == "on_error" and returncode != 0`, the whole stdout buffer is
written to stdout, then the whole stderr buffer to stderr. -/
def replayWrites (echo : Echo) (returncode : Int)
    (stdout_buf stderr_buf : List String) : List TermWrite :=
  if echo = Echo.on_error ∧ returncode ≠ 0 then
    stdout_buf.map (fun l => (StdStream.out, l))
      ++ stderr_buf.map (fun l => (StdStream.err, l))
  else []

/-- All terminal output of one captured `run_logged` call, in order: the
live-forwarded lines (written while the process runs), then the replay
block (written after exit). -/
def terminalWrites (echo : Echo) (interleaving : List TermWrite) (returncode : Int)
    (stdout_buf stderr_buf : List String) : List TermWrite :=
  liveWrites echo interleaving ++ replayWrites echo returncode stdout_buf stderr_buf

/-- Concatenated text of a block of terminal writes. -/
def writesText (ws : List TermWrite) : String := String.join (ws.map Prod.snd)

/-! ### Identity Resolver: `azure_context` (`_deploy_common.py`) -/

/-- Python truthiness of `os.environ.get(name)`: `None` and `""` are falsy. -/
def truthy : Option String → Bool
  | none => false
  | some s => !s.isEmpty

/-- Python `a or b` on optional environment values. -/
def pyOr (a b : Option String) : Option String := if truthy a then a else b

/-- The resolved identity pair. -/
structure AzureContext where
  subscription_id : String
  tenant_id : String
deriving DecidableEq

/-- Failure modes of the external identity query: unparseable output or
missing `id`/`tenantId` field. -/
inductive IdErr
  | parseFailure
  | missingField
deriving DecidableEq

/-- `azure_context()`: `env` is the process environment; the external
`az account show --output json` call is modelled by its parsed response
(`none` when the output is not valid JSON, otherwise a partial field map).
Returns the outcome together with whether the external command was run. -/
def azure_context (env : String → Option String)
    (azShow : Option (String → Option String)) :
    Except IdErr AzureContext × Bool :=
  let env_sub := pyOr (env "AZURE_SUBSCRIPTION_ID") (env "ARM_SUBSCRIPTION_ID")
  let env_tenant := pyOr (env "AZURE_TENANT_ID") (env "ARM_TENANT_ID")
  if truthy env_sub && truthy env_tenant then
    (Except.ok ⟨env_sub.getD "", env_tenant.getD ""⟩, false)
  else
    match azShow with
    | none => (Except.error IdErr.parseFailure, true)
    | some data =>
      match data "id", data "tenantId" with
      | some sub, some ten => (Except.ok ⟨sub, ten⟩, true)
      | _, _ => (Except.error IdErr.missingField, true)

/-- Both members of one environment-variable pair are present (truthy), the
condition named by the specification. -/
def pairPresent (env : String → Option String) (subVar tenVar : String) : Bool :=
  truthy (env subVar) && truthy (env tenVar)

/-- Environment for the C7 counterexample: the subscription id comes from
the primary pair and the tenant id from the fallback pair, so neither pair
is fully present. -/
def envMixedPair : String → Option String := fun k =>
  if k = "AZURE_SUBSCRIPTION_ID" then some "sub-env"
  else if k = "ARM_TENANT_ID" then some "ten-env"
  else none

/-- Environment for the C7 witness: the primary pair is fully present. -/
def envAzurePair : String → Option String := fun k =>
  if k = "AZURE_SUBSCRIPTION_ID" then some "sub-1"
  else if k = "AZURE_TENANT_ID" then some "ten-1"
  else none

/-! ### Build-and-Publish Pipeline: `_registry_login_server` (`build_and_push.py`) -/

/-- Python truthiness of an optional character-list value. -/
def truthyL : Option Str → Bool
  | none => false
  | some s => !s.isEmpty

/-- Python `a or b` on optional character-list values. -/
def pyOrL (a b : Option Str) : Option Str := if truthyL a then a else b

/-- The `RegistryEndpointRequired` fatal error of the spec
(`RuntimeError("registry_login_server is required. ...")` in the code). -/
inductive RegistryErr
  | registryEndpointRequired
deriving DecidableEq

/-- `_registry_login_server(override, tfvars_data)`: resolves
`override or AZ_READER_REGISTRY_LOGIN_SERVER or REGISTRY_LOGIN_SERVER or
str(tfvars_data.get("registry_login_server", "") or "").strip()` and
rejects values that are empty, contain `<`, or are whitespace-only. -/
def _registry_login_server (override envAz envReg tfvarsVal : Option Str) :
    Except RegistryErr Str :=
  let value :=
    (pyOrL override (pyOrL envAz (pyOrL envReg
      (some (pstrip (tfvarsVal.getD [])))))).getD []
  if value.isEmpty || value.contains '<' || (pstrip value).isEmpty then
    Except.error RegistryErr.registryEndpointRequired
  else Except.ok value

/-- The specification's reading of the resolution order: the first present
(truthy) value among the four sources in order. -/
def firstTruthyL : List (Option Str) → Str
  | [] => []
  | o :: os => if truthyL o then o.getD [] else firstTruthyL os

/-! ### Token Registry (`manage_tokens.py`) -/

/-- A Python `dict[str, str]` in insertion order, as an association list;
token names and values are character lists. -/
abbrev TokenMap := List (Str × Str)

/-- Python `tokens[name] = value`: overwrite the value in place if the name
exists, else append a new entry. -/
def insertA : TokenMap → Str → Str → TokenMap
  | [], n, v => [(n, v)]
  | (k, w) :: t, n, v =>
    if k = n then (k, v) :: t else (k, w) :: insertA t n v

/-- Lookup by name (names are unique in a dict, so first occurrence). -/
def lookupA : TokenMap → Str → Option Str
  | [], _ => none
  | (k, w) :: t, n => if k = n then some w else lookupA t n

/-- Python `tokens.pop(name, None)`. -/
def removeA : TokenMap → Str → TokenMap
  | [], _ => []
  | (k, w) :: t, n => if k = n then t else (k, w) :: removeA t n

/-- The decimal digit character for `n < 10`. -/
def digitChar (n : Nat) : Char := Char.ofNat (48 + n)

/-- Decimal rendering of a natural number, modelling Python `f"{n}"`. -/
def natDigits (n : Nat) : Str :=
  if _h : n < 10 then [digitChar n]
  else natDigits (n / 10) ++ [digitChar (n % 10)]
decreasing_by
  exact Nat.div_lt_self (by omega) (by omega)

/-- Decimal value of a digit string, modelling Python `int(item)` on a
string of digits. -/
def digitsVal (s : Str) : Nat := s.foldl (fun a c => a * 10 + (c.toNat - 48)) 0

/-- Python `str.isdigit()` (ASCII digits). -/
def pyIsDigit (s : Str) : Bool := !s.isEmpty && s.all (fun c => c.isDigit)

/-- `f"generated-{suffix}"`. -/
def genName (k : Nat) : Str := ("generated-").toList ++ natDigits k

/-- `f"legacy-{n}"`. -/
def legacyName (k : Nat) : Str := ("legacy-").toList ++ natDigits k

/-- `output.replace("\n", ";").replace(",", ";")` from `_load_tokens`. -/
def replaceDelims (s : Str) : Str :=
  s.map (fun c => if c = '\n' then ';' else if c = ',' then ';' else c)

/-- The entry loop of `_load_tokens`: named entries come from `name:value`
pieces with nonempty stripped sides; separator-less pieces are preserved
under `legacy-<n>` placeholder names, 1-based, in encounter order. -/
def parseEntries : List Str → TokenMap → Nat → TokenMap
  | [], tokens, _ => tokens
  | e :: es, tokens, counter =>
    let e2 := pstrip e
    if e2.isEmpty then parseEntries es tokens counter
    else if e2.contains ':' then
      let name := pstrip (e2.takeWhile (fun c => c ≠ ':'))
      let value := pstrip ((e2.dropWhile (fun c => c ≠ ':')).tail)
      if !name.isEmpty && !value.isEmpty then
        parseEntries es (insertA tokens name value) counter
      else parseEntries es tokens counter
    else parseEntries es (insertA tokens (legacyName counter) e2) (counter + 1)

/-- `_load_tokens` applied to the raw secret text (the Key Vault read and
its empty-on-failure fallback are the caller's concern): strip, empty
check, delimiter replacement, split on `;`, entry loop. -/
def _load_tokens_text (output : Str) : TokenMap :=
  let o := pstrip output
  if o.isEmpty then []
  else parseEntries (splitOnC ';' (replaceDelims o)) [] 1

/-- Code-point comparison of Python strings (`s1 < s2`). -/
def strLt : Str → Str → Bool
  | [], [] => false
  | [], _ :: _ => true
  | _ :: _, [] => false
  | a :: as, b :: bs => a < b || (a = b && strLt as bs)

/-- `s1 <= s2` on code points. -/
def strLe (a b : Str) : Bool := strLt a b || a == b

/-- Python tuple comparison `(n1, v1) <= (n2, v2)`, as `sorted` uses on
`tokens.items()`. -/
def pairLe (p q : Str × Str) : Bool :=
  strLt p.1 q.1 || (p.1 == q.1 && strLe p.2 q.2)

/-- Stable insertion into a sorted list (one step of `sorted`). -/
def insertSorted (x : Str × Str) : TokenMap → TokenMap
  | [] => [x]
  | y :: ys => if pairLe x y then x :: y :: ys else y :: insertSorted x ys

/-- `sorted(tokens.items())`. -/
def sortPairs (l : TokenMap) : TokenMap := l.foldr insertSorted []

/-- The serialized secret value written by `_save_tokens`:
`";".join(f"{name}:{value}" ...)` over the sorted entries. -/
def serializeTokens (tokens : TokenMap) : Str :=
  joinWith ';' ((sortPairs tokens).map (fun p => p.1 ++ ':' :: p.2))

/-- `_validate_component`: neither `:` nor `;` may occur. -/
def validComponent (s : Str) : Bool := !(s.contains ':') && !(s.contains ';')

/-- Delimiter-free component in the claim's sense: none of the parser's
separators (`:`, `;`, `,`, newline) occur. -/
def charOk (s : Str) : Bool :=
  !(s.contains ':') && !(s.contains ';') && !(s.contains ',') &&
    !(s.contains '\n')

/-- The C4 counterexample TokenSet: a single entry whose value carries a
trailing space — it contains no delimiter, yet does not survive the
round trip, because the parser strips it. -/
def tokenSetCE : TokenMap := [(['a'], ['v', ' '])]

/-- Errors raised by `manage_tokens` (all `ValueError` in the code). -/
inductive TokErr
  | nameCollision (name : Str)
  | invalidComponent
  | parseError
deriving DecidableEq

/-- Python `raw.split(sep, 1)` when `sep` occurs in `raw`. -/
def splitOnce (sep : Char) (raw : Str) : Str × Str :=
  (raw.takeWhile (fun c => c ≠ sep), (raw.dropWhile (fun c => c ≠ sep)).tail)

/-- `_parse_name_value(raw)`: split on the first `:` (or else the first
`=`), strip both sides, require them nonempty and delimiter-free. -/
def _parse_name_value (raw : Str) : Except TokErr (Str × Str) :=
  let parts :=
    if raw.contains ':' then some (splitOnce ':' raw)
    else if raw.contains '=' then some (splitOnce '=' raw)
    else none
  match parts with
  | none => Except.error TokErr.parseError
  | some (n, v) =>
    let name := pstrip n
    let value := pstrip v
    if name.isEmpty || value.isEmpty then Except.error TokErr.parseError
    else if !(validComponent name) || !(validComponent value) then
      Except.error TokErr.invalidComponent
    else Except.ok (name, value)

/-- `while name in tokens: suffix += 1`, fuelled; `firstFree` supplies fuel
`|names| + 1`, proved sufficient below, so this equals the Python loop. -/
def bumpSuffix (names : List Str) : Nat → Nat → Nat
  | 0, s => s
  | fuel + 1, s => if genName s ∈ names then bumpSuffix names fuel (s + 1) else s

/-- The suffix at which the Python bump loop stops when started at `s`. -/
def firstFree (names : List Str) (s : Nat) : Nat :=
  bumpSuffix names (names.length + 1) s

/-- The strictly increasing enumeration (from the smallest) of suffixes
`k ≥ 1` with `generated-<k>` unused in `names`. -/
def freeSeq (names : List Str) : Nat → Nat
  | 0 => firstFree names 1
  | i + 1 => firstFree names (freeSeq names i + 1)

/-- The numeric branch of the `generate` loop in `manage_tokens`:
`for idx in range(count)` with `suffix = idx + 1`, bumping past existing
names; `vals idx` is the idx-th `_generate_token()` result. Returns the
updated map and the list of generated pairs in generation order. -/
def genNumeric (vals : Nat → Str) (count idx : Nat) (tokens : TokenMap) :
    TokenMap × List (Str × Str) :=
  if h : idx < count then
    let suffix := firstFree (tokens.map Prod.fst) (idx + 1)
    let rest := genNumeric vals count (idx + 1)
      (insertA tokens (genName suffix) (vals idx))
    (rest.1, (genName suffix, vals idx) :: rest.2)
  else (tokens, [])
termination_by count - idx
decreasing_by
  omega

/-- The `generate` loop of `manage_tokens` over all requested items, with
the dict of generated entries and the running count of
`_generate_token()` calls. -/
def processGenerate (vals : Nat → Str) :
    List Str → TokenMap → TokenMap → Nat → Except TokErr (TokenMap × TokenMap × Nat)
  | [], tokens, generated, calls => Except.ok (tokens, generated, calls)
  | item :: items, tokens, generated, calls =>
    if pyIsDigit item then
      let count := digitsVal item
      let r := genNumeric (fun i => vals (calls + i)) count 0 tokens
      processGenerate vals items r.1
        (r.2.foldl (fun g p => insertA g p.1 p.2) generated) (calls + count)
    else
      let name := pstrip item
      if name.isEmpty then processGenerate vals items tokens generated calls
      else if !(validComponent name) then Except.error TokErr.invalidComponent
      else if name ∈ tokens.map Prod.fst then
        Except.error (TokErr.nameCollision name)
      else processGenerate vals items (insertA tokens name (vals calls))
        (insertA generated name (vals calls)) (calls + 1)

/-- The `add` loop: parse each entry and overwrite by name. -/
def processAdd : List Str → TokenMap → Except TokErr TokenMap
  | [], tokens => Except.ok tokens
  | raw :: raws, tokens =>
    match _parse_name_value raw with
    | Except.error e => Except.error e
    | Except.ok (n, v) => processAdd raws (insertA tokens n v)

/-- The `remove` loop: `tokens.pop(token, None)`. -/
def processRemove : List Str → TokenMap → TokenMap
  | [], tokens => tokens
  | n :: ns, tokens => processRemove ns (removeA tokens n)

/-- The mutation pipeline of `manage_tokens` — generate, then add, then
remove — abstracting the Key Vault read/write and the random generator.
Returns the final map and the `generated` dict. -/
def manage_tokens_core (vals : Nat → Str) (tokens : TokenMap)
    (add remove generate : List Str) : Except TokErr (TokenMap × TokenMap) :=
  match processGenerate vals generate tokens [] 0 with
  | Except.error e => Except.error e
  | Except.ok (t1, generated, _) =>
    match processAdd add t1 with
    | Except.error e => Except.error e
    | Except.ok t2 => Except.ok (processRemove remove t2, generated)

/-! ### Stack Lifecycle Controller and workload workflow
(`load_bootstrap_state` in `_deploy_common.py`, `deploy_workload` in
`deploy_workload.py`) -/

/-- Observable side effects of the workload deployment workflow, at the
granularity the ordering and guard claims need. -/
inductive Action
  | checkStateFile
  | setEnvVar (name : String)
  | runTerraformInitLocal
  | runTerraformOutput
  | buildAndPush (image : String)
  | tfvarsWrite (key : String)
  | runTerraformInitRemote
  | runTerraformPlan
  | runTerraformApply
deriving DecidableEq

/-- Failure modes surfacing through `deploy_workload`. -/
inductive DeployErr
  | upstreamNotBootstrapped
  | missingStackOutput (key : String)
  | identityFailed
  | seedFailed
  | buildFailed
deriving DecidableEq

/-- The four required coordinates extracted from bootstrap outputs. -/
structure BootstrapState where
  resource_group : String
  storage_account : String
  container : String
  blob_key : String
deriving DecidableEq

/-- `bootstrap_state_from_outputs(outputs)`: the `outputs` argument is the
value map key ↦ `outputs.get(key, ...).get("value")`; each `_required`
lookup raises on a missing key, checked in construction order. -/
def bootstrap_state_from_outputs (outputs : String → Option String) :
    Except DeployErr BootstrapState :=
  match outputs "state_rg_name" with
  | none => Except.error (DeployErr.missingStackOutput "state_rg_name")
  | some rg =>
    match outputs "state_storage_account_name" with
    | none => Except.error (DeployErr.missingStackOutput "state_storage_account_name")
    | some sa =>
      match outputs "state_container_name" with
      | none => Except.error (DeployErr.missingStackOutput "state_container_name")
      | some c =>
        match outputs "state_blob_key" with
        | none => Except.error (DeployErr.missingStackOutput "state_blob_key")
        | some k => Except.ok ⟨rg, sa, c, k⟩

/-- `load_bootstrap_state(env, paths, ctx)`: check the local bootstrap
state file; if absent, fail (`UpstreamNotBootstrapped`) having done nothing
but the check; otherwise export the ARM variables, run the local backend
init and the output read, and map the outputs. `stateExists` is whether
`paths.bootstrap/.state/<env>/bootstrap.tfstate` exists; `outputs` stands
for the parsed `terraform output -json` value map. -/
def load_bootstrap_state (stateExists : Bool) (outputs : String → Option String) :
    Except DeployErr BootstrapState × List Action :=
  if stateExists then
    (bootstrap_state_from_outputs outputs,
     [Action.checkStateFile, Action.setEnvVar "ARM_SUBSCRIPTION_ID",
      Action.setEnvVar "ARM_TENANT_ID", Action.runTerraformInitLocal,
      Action.runTerraformOutput])
  else
    (Except.error DeployErr.upstreamNotBootstrapped, [Action.checkStateFile])

/-- The remote-backend initialization phase of `deploy_workload`:
`load_bootstrap_state`, then recording the four coordinates into the
tfvars via `update_tfvars`, then `terraform_init_remote`. -/
def workload_remote_init (stateExists : Bool) (outputs : String → Option String) :
    Except DeployErr BootstrapState × List Action :=
  match load_bootstrap_state stateExists outputs with
  | (Except.error e, tr) => (Except.error e, tr)
  | (Except.ok bs, tr) =>
    (Except.ok bs,
     tr ++ [Action.tfvarsWrite "state_resource_group_name",
       Action.tfvarsWrite "state_storage_account_name",
       Action.tfvarsWrite "state_container_name",
       Action.tfvarsWrite "state_blob_key",
       Action.runTerraformInitRemote])

/-- World parameters of one `deploy_workload` run: whether identity
resolution and tfvars seeding succeed, the outcome of `build_and_push`
(the pushed image reference on success), whether the upstream state file
exists, and the bootstrap output map. -/
structure WorkloadWorld where
  identityOk : Bool
  seedOk : Bool
  buildOutcome : Except Unit String
  stateExists : Bool
  outputs : String → Option String

/-- `deploy_workload(env, ...)` at trace granularity: identity resolution
and tfvars seeding first, then `build_and_push` — which, on success,
pushes the image and records `registry_login_server` and
`container_image` into the tfvars (a failed build performs no tfvars
write, since the recording runs after the build) — then the upstream
state check and the remote-backend phase, then plan and apply. -/
def deploy_workload (w : WorkloadWorld) : Except DeployErr Unit × List Action :=
  if w.identityOk = false then (Except.error DeployErr.identityFailed, [])
  else if w.seedOk = false then (Except.error DeployErr.seedFailed, [])
  else
    match w.buildOutcome with
    | Except.error _ => (Except.error DeployErr.buildFailed, [])
    | Except.ok img =>
      let buildTrace := [Action.buildAndPush img,
        Action.tfvarsWrite "registry_login_server",
        Action.tfvarsWrite "container_image"]
      match workload_remote_init w.stateExists w.outputs with
      | (Except.error e, tr) => (Except.error e, buildTrace ++ tr)
      | (Except.ok _, tr) =>
        (Except.ok (), buildTrace ++ tr
          ++ [Action.runTerraformPlan, Action.runTerraformApply])

/-- The C10 witness world: identity and seeding succeed, the build pushes
`img-1`, and the upstream state file is absent. -/
def workloadCE : WorkloadWorld :=
  ⟨true, true, Except.ok "img-1", false, fun _ => none⟩

example :
    set_tfvar_value "a = \"1\"\n".toList "a".toList "2".toList
      = "a = \"2\"\n".toList := by decide

example :
    set_tfvar_value "x = \"1\"\n".toList "b".toList "2".toList
      = "x = \"1\"\nb = \"2\"\n".toList := by decide

example :
    set_tfvar_value "  a = \"1\"".toList "a".toList "2".toList
      = "  a = \"2\"\n".toList := by decide

/-! ## Lemmas about splitting and joining lines -/

theorem splitOnC_ne_nil (sep : Char) (s : Str) : splitOnC sep s ≠ [] := by
  induction s with
  | nil => simp [splitOnC]
  | cons c cs ih =>
    simp only [splitOnC]
    split
    · simp
    · cases h : splitOnC sep cs with
      | nil => simp
      | cons p ps => simp

theorem splitOnC_sepFree (sep : Char) (s : Str) (h : ∀ c ∈ s, ¬ c = sep) :
    splitOnC sep s = [s] := by
  induction s with
  | nil => rfl
  | cons c cs ih =>
    have hc : ¬ c = sep := h c (List.mem_cons_self _ _)
    have hcs : splitOnC sep cs = [cs] := ih fun d hd => h d (List.mem_cons_of_mem _ hd)
    simp [splitOnC, hc, hcs]

theorem splitOnC_append_sepFree (sep : Char) (l r : Str) (h : ∀ c ∈ l, ¬ c = sep) :
    splitOnC sep (l ++ sep :: r) = l :: splitOnC sep r := by
  induction l with
  | nil => simp [splitOnC]
  | cons c cs ih =>
    have hc : ¬ c = sep := h c (List.mem_cons_self _ _)
    have hcs := ih fun d hd => h d (List.mem_cons_of_mem _ hd)
    simp only [List.cons_append, splitOnC, hc, if_false, List.append_eq]
    rw [hcs]

theorem splitOnC_concat_sep (sep : Char) (s : Str) :
    splitOnC sep (s ++ [sep]) = splitOnC sep s ++ [[]] := by
  induction s with
  | nil => simp [splitOnC]
  | cons c cs ih =>
    by_cases hc : c = sep
    · simp [splitOnC, hc, ih]
    · simp only [List.cons_append, splitOnC, hc, if_false, List.append_eq]
      rw [ih]
      cases h : splitOnC sep cs with
      | nil => exact absurd h (splitOnC_ne_nil sep cs)
      | cons p ps => simp

theorem mem_splitOnC_sepFree (sep : Char) (s : Str) (p : Str)
    (hp : p ∈ splitOnC sep s) : ∀ c ∈ p, ¬ c = sep := by
  induction s generalizing p with
  | nil =>
    simp only [splitOnC, List.mem_singleton] at hp
    subst hp; intro c hc; cases hc
  | cons a as ih =>
    simp only [splitOnC] at hp
    by_cases ha : a = sep
    · rw [if_pos ha] at hp
      rcases List.mem_cons.mp hp with h | h
      · subst h; intro c hc; cases hc
      · exact ih p h
    · rw [if_neg ha] at hp
      cases h : splitOnC sep as with
      | nil => exact absurd h (splitOnC_ne_nil sep as)
      | cons q qs =>
        rw [h] at hp
        rcases List.mem_cons.mp hp with h' | h'
        · subst h'
          intro c hc
          rcases List.mem_cons.mp hc with h'' | h''
          · subst h''; exact ha
          · exact ih q (h ▸ List.mem_cons_self _ _) c h''
        · exact ih p (h ▸ List.mem_cons_of_mem _ h')

theorem joinWith_cons (sep : Char) (l : Str) (ls : List Str) (h : ls ≠ []) :
    joinWith sep (l :: ls) = l ++ sep :: joinWith sep ls := by
  cases ls with
  | nil => exact absurd rfl h
  | cons a as => rfl

theorem splitOnC_joinWith (sep : Char) (L : List Str) (hne : L ≠ [])
    (hfree : ∀ l ∈ L, ∀ c ∈ l, ¬ c = sep) :
    splitOnC sep (joinWith sep L) = L := by
  induction L with
  | nil => exact absurd rfl hne
  | cons l ls ih =>
    cases ls with
    | nil =>
      simp only [joinWith]
      exact splitOnC_sepFree sep l (hfree l (List.mem_cons_self _ _))
    | cons m ms =>
      rw [joinWith_cons sep l (m :: ms) (by simp)]
      rw [splitOnC_append_sepFree sep l (joinWith sep (m :: ms))
        (hfree l (List.mem_cons_self _ _))]
      rw [ih (by simp) (fun x hx => hfree x (List.mem_cons_of_mem _ hx))]

theorem getLast?_cons_ne_nil {α : Type} (c : α) (x : List α) (h : x ≠ []) :
    (c :: x).getLast? = x.getLast? := by
  cases x with
  | nil => exact absurd rfl h
  | cons a as => rw [List.getLast?_cons_cons]

theorem getLast?_append_ne_nil {α : Type} (l x : List α) (h : x ≠ []) :
    (l ++ x).getLast? = x.getLast? := by
  induction l with
  | nil => rfl
  | cons b bs ihl =>
    have hbx : bs ++ x ≠ [] := by
      intro hc
      rcases List.append_eq_nil.mp hc with ⟨h1, h2⟩
      exact h h2
    rw [List.cons_append, getLast?_cons_ne_nil b (bs ++ x) hbx]
    exact ihl

theorem getLast?_joinWith (sep : Char) (L : List Str) (m : Str)
    (hl : L.getLast? = some m) (hm : m ≠ []) :
    (joinWith sep L).getLast? = m.getLast? := by
  induction L with
  | nil => simp at hl
  | cons l ls ih =>
    cases ls with
    | nil =>
      simp only [List.getLast?_singleton, Option.some.injEq] at hl
      subst hl; rfl
    | cons a as =>
      rw [joinWith_cons sep l (a :: as) (by simp)]
      rw [List.getLast?_cons_cons] at hl
      have hj := ih hl
      have hjne : joinWith sep (a :: as) ≠ [] := by
        intro hempty
        rw [hempty] at hj
        cases m with
        | nil => exact hm rfl
        | cons mc mcs =>
          simp [List.getLast?_cons] at hj
      rw [getLast?_append_ne_nil l (sep :: joinWith sep (a :: as)) (by simp)]
      rw [getLast?_cons_ne_nil sep (joinWith sep (a :: as)) hjne]
      exact hj

theorem mem_pySplitlines_noNL (s : Str) (l : Str) (hl : l ∈ pySplitlines s) :
    ∀ c ∈ l, ¬ c = '\n' := by
  unfold pySplitlines at hl
  split at hl
  · cases hl
  · split at hl
    · exact mem_splitOnC_sepFree '\n' s l (List.dropLast_subset _ hl)
    · exact mem_splitOnC_sepFree '\n' s l hl

theorem head?_append_ne_nil {α : Type} (l x : List α) (h : l ≠ []) :
    (l ++ x).head? = l.head? := by
  cases l with
  | nil => exact absurd rfl h
  | cons a as => rfl

/-- Round trip at the heart of `_set_tfvar_value`: joining newline-free lines
with `"\n"`, normalizing the trailing newline, and splitting again recovers
the lines, provided the final line is nonempty. -/
theorem pySplitlines_roundtrip (L : List Str) (hne : L ≠ [])
    (hfree : ∀ l ∈ L, ∀ c ∈ l, ¬ c = '\n')
    (hlast : L.getLast? ≠ some ([] : Str)) :
    pySplitlines (ensureNL (joinWith '\n' L)) = L := by
  have hm : L.getLast? = some (L.getLast hne) := List.getLast?_eq_getLast L hne
  set m := L.getLast hne with hmdef
  have hmne : m ≠ [] := fun h => hlast (h ▸ hm)
  have hmmem : m ∈ L := List.getLast_mem hne
  have hmlast : m.getLast? = some (m.getLast hmne) := List.getLast?_eq_getLast m hmne
  have hclast : ¬ (m.getLast hmne) = '\n' :=
    hfree m hmmem (m.getLast hmne) (List.getLast_mem hmne)
  have hjlast : (joinWith '\n' L).getLast? = some (m.getLast hmne) := by
    rw [getLast?_joinWith '\n' L m hm hmne]; exact hmlast
  have hendsF : endsNL (joinWith '\n' L) = false := by
    simp only [endsNL, hjlast, beq_iff_eq, Option.some.injEq]
    exact decide_eq_false hclast
  rw [ensureNL, hendsF]
  simp only [Bool.false_eq_true, if_false]
  have hne2 : joinWith '\n' L ++ ['\n'] ≠ [] := by simp
  have hlast2 : (joinWith '\n' L ++ ['\n']).getLast? = some '\n' := by
    rw [getLast?_append_ne_nil _ _ (by simp)]; rfl
  rw [pySplitlines, if_neg hne2, if_pos hlast2]
  rw [splitOnC_concat_sep, List.dropLast_concat]
  exact splitOnC_joinWith '\n' L hne hfree

/-! ## Lemmas about Python strip -/

theorem length_dropWhile_le {α : Type} (p : α → Bool) (l : List α) :
    (l.dropWhile p).length ≤ l.length := by
  induction l with
  | nil => simp
  | cons a as ih =>
    by_cases h : p a
    · rw [List.dropWhile_cons_of_pos h]
      exact Nat.le_trans ih (Nat.le_succ _)
    · rw [List.dropWhile_cons_of_neg h]

theorem length_rstrip_le (s : Str) : (rstrip s).length ≤ s.length := by
  rw [rstrip, List.length_reverse]
  calc (s.reverse.dropWhile pyIsSpace).length ≤ s.reverse.length :=
        length_dropWhile_le _ _
    _ = s.length := List.length_reverse s

theorem dropWhile_head_false {α : Type} (p : α → Bool) (l : List α) (a : α)
    (h : l.head? = some a) (hp : p a = false) : l.dropWhile p = l := by
  cases l with
  | nil => cases h
  | cons c cs =>
    have : c = a := by simpa using h
    subst this
    exact List.dropWhile_cons_of_neg (by simp [hp])

theorem takeWhile_head_false {α : Type} (p : α → Bool) (l : List α) (a : α)
    (h : l.head? = some a) (hp : p a = false) : l.takeWhile p = [] := by
  cases l with
  | nil => cases h
  | cons c cs =>
    have : c = a := by simpa using h
    subst this
    exact List.takeWhile_cons_of_neg (by simp [hp])

theorem head?_dropWhile_false {α : Type} (p : α → Bool) (l : List α) (a : α)
    (h : (l.dropWhile p).head? = some a) : p a = false := by
  induction l with
  | nil => cases h
  | cons c cs ih =>
    by_cases hc : p c
    · rw [List.dropWhile_cons_of_pos hc] at h
      exact ih h
    · rw [List.dropWhile_cons_of_neg hc] at h
      have : c = a := by simpa using h
      subst this
      exact Bool.eq_false_iff.mpr hc

theorem pstrip_head_not_space (s : Str) (hs : pstrip s = s) (c : Char)
    (hc : s.head? = some c) : pyIsSpace c = false := by
  cases s with
  | nil => cases hc
  | cons a t =>
    have hac : a = c := by simpa using hc
    subst hac
    by_contra hws
    have hws' : pyIsSpace a = true := eq_true_of_ne_false (by simpa using hws)
    have h1 : lstrip (a :: t) = lstrip t := List.dropWhile_cons_of_pos hws'
    have h2 : (pstrip (a :: t)).length ≤ t.length := by
      rw [pstrip, h1]
      exact Nat.le_trans (length_rstrip_le _) (length_dropWhile_le _ _)
    rw [hs] at h2
    simp only [List.length_cons] at h2
    omega

theorem pstrip_last_not_space (s : Str) (hs : pstrip s = s) (c : Char)
    (hc : s.getLast? = some c) : pyIsSpace c = false := by
  have h1 : s.getLast? = ((lstrip s).reverse.dropWhile pyIsSpace).reverse.getLast? := by
    conv_lhs => rw [← hs]
    rfl
  rw [List.getLast?_reverse] at h1
  rw [hc] at h1
  exact head?_dropWhile_false pyIsSpace (lstrip s).reverse c h1.symm

theorem pstrip_eq_self (s : Str)
    (hh : ∀ c, s.head? = some c → pyIsSpace c = false)
    (hl : ∀ c, s.getLast? = some c → pyIsSpace c = false) : pstrip s = s := by
  cases hse : s with
  | nil => rfl
  | cons a t =>
    have hlstrip : lstrip (a :: t) = a :: t :=
      dropWhile_head_false pyIsSpace (a :: t) a rfl (hh a (hse ▸ rfl))
    have hlastne : (a :: t) ≠ ([] : Str) := by simp
    have hlast : (a :: t).getLast? = some ((a :: t).getLast hlastne) :=
      List.getLast?_eq_getLast _ _
    have hrev : (a :: t).reverse.head? = some ((a :: t).getLast hlastne) := by
      rw [List.head?_reverse]; exact hlast
    have hrstrip : rstrip (a :: t) = a :: t := by
      rw [rstrip, dropWhile_head_false pyIsSpace (a :: t).reverse _ hrev
        (hl _ (hse ▸ hlast)), List.reverse_reverse]
    rw [pstrip, hlstrip, hrstrip]

theorem dropWhile_append_all {α : Type} (p : α → Bool) (w s : List α)
    (h : ∀ c ∈ w, p c = true) : (w ++ s).dropWhile p = s.dropWhile p := by
  induction w with
  | nil => rfl
  | cons a as ih =>
    rw [List.cons_append, List.dropWhile_cons_of_pos (h a (List.mem_cons_self _ _))]
    exact ih fun c hc => h c (List.mem_cons_of_mem _ hc)

theorem takeWhile_append_all {α : Type} (p : α → Bool) (w s : List α)
    (h : ∀ c ∈ w, p c = true) : (w ++ s).takeWhile p = w ++ s.takeWhile p := by
  induction w with
  | nil => rfl
  | cons a as ih =>
    rw [List.cons_append, List.takeWhile_cons_of_pos (h a (List.mem_cons_self _ _)),
      ih fun c hc => h c (List.mem_cons_of_mem _ hc), List.cons_append]

/-! ## Well-formed keys and the generated assignment line -/

theorem validKey_parts (key : Str) (h : validKey key = true) :
    key ≠ [] ∧ pstrip key = key ∧ ¬ '=' ∈ key ∧ ¬ '\n' ∈ key ∧
      ¬ key.head? = some '#' := by
  simp only [validKey, Bool.and_eq_true, Bool.not_eq_true', beq_eq_false_iff_ne,
    ne_eq, decide_eq_false_iff_not, Bool.not_eq_eq_eq_not, Bool.not_true,
    List.isEmpty_eq_false, beq_iff_eq] at h
  tauto

theorem mkAssign_ne_nil (key value : Str) : mkAssign key value ≠ [] := by
  exact List.append_ne_nil_of_right_ne_nil _ (by simp)

theorem mkAssign_head? (key value : Str) (hk : key ≠ []) :
    (mkAssign key value).head? = key.head? :=
  head?_append_ne_nil key _ hk

theorem mkAssign_getLast? (key value : Str) :
    (mkAssign key value).getLast? = some '"' := by
  rw [mkAssign, getLast?_append_ne_nil _ _ (by simp)]
  rw [getLast?_cons_ne_nil _ _ (by simp), getLast?_cons_ne_nil _ _ (by simp),
    getLast?_cons_ne_nil _ _ (by simp),
    getLast?_cons_ne_nil _ _ (List.append_ne_nil_of_right_ne_nil _ (by simp))]
  rw [getLast?_append_ne_nil _ _ (by simp)]
  rfl

theorem mkAssign_noNL (key value : Str) (hk : ¬ '\n' ∈ key) (hv : ¬ '\n' ∈ value) :
    ∀ c ∈ mkAssign key value, ¬ c = '\n' := by
  intro c hc hcn
  subst hcn
  simp only [mkAssign, List.mem_append, List.mem_cons] at hc
  rcases hc with h | h
  · exact hk h
  · rcases h with h | h | h | h | h
    · cases h
    · cases h
    · cases h
    · cases h
    · rcases h with h2 | h2 | h2
      · exact hv h2
      · cases h2
      · cases h2

theorem key_head_not_space (key : Str) (hk : validKey key = true) :
    ∃ hc, key.head? = some hc ∧ pyIsSpace hc = false ∧ ¬ hc = '#' := by
  obtain ⟨hne, hps, _, _, hhash⟩ := validKey_parts key hk
  cases key with
  | nil => exact absurd rfl hne
  | cons a t =>
    refine ⟨a, rfl, pstrip_head_not_space _ hps a rfl, ?_⟩
    intro h
    subst h
    exact hhash rfl

theorem key_last_not_space (key : Str) (hk : validKey key = true) :
    ∃ lc, key.getLast? = some lc ∧ pyIsSpace lc = false := by
  obtain ⟨hne, hps, _, _, _⟩ := validKey_parts key hk
  refine ⟨key.getLast hne, List.getLast?_eq_getLast key hne, ?_⟩
  exact pstrip_last_not_space _ hps _ (List.getLast?_eq_getLast key hne)

theorem lstrip_ws_mkAssign (key value w : Str) (hk : validKey key = true)
    (hw : allWS w) : lstrip (w ++ mkAssign key value) = mkAssign key value := by
  obtain ⟨hc, hhead, hcns, _⟩ := key_head_not_space key hk
  obtain ⟨hne, _, _, _, _⟩ := validKey_parts key hk
  rw [lstrip, dropWhile_append_all _ _ _ hw]
  exact dropWhile_head_false _ _ hc (by rw [mkAssign_head? key value hne]; exact hhead) hcns

theorem rstrip_mkAssign (key value : Str) : rstrip (mkAssign key value) = mkAssign key value := by
  rw [rstrip, dropWhile_head_false pyIsSpace (mkAssign key value).reverse '"'
    (by rw [List.head?_reverse]; exact mkAssign_getLast? key value) (by decide)]
  exact List.reverse_reverse _

theorem pstrip_ws_mkAssign (key value w : Str) (hk : validKey key = true)
    (hw : allWS w) : pstrip (w ++ mkAssign key value) = mkAssign key value := by
  rw [pstrip, lstrip_ws_mkAssign key value w hk hw]
  exact rstrip_mkAssign key value

theorem takeWhile_mkAssign (key value : Str) (hne : ¬ '=' ∈ key) :
    (mkAssign key value).takeWhile (fun c => c ≠ '=') = key ++ [' '] := by
  rw [mkAssign]
  rw [takeWhile_append_all _ key _ (fun c hc => by
    simp only [ne_eq, decide_eq_true_eq]
    intro h
    exact hne (h ▸ hc))]
  rw [List.takeWhile_cons_of_pos (by decide), List.takeWhile_cons_of_neg (by decide)]

theorem pstrip_key_space (key : Str) (hk : validKey key = true) :
    pstrip (key ++ [' ']) = key := by
  obtain ⟨hc, hhead, hcns, _⟩ := key_head_not_space key hk
  obtain ⟨lc, hlast, hlcns⟩ := key_last_not_space key hk
  obtain ⟨hne, _, _, _, _⟩ := validKey_parts key hk
  have h1 : lstrip (key ++ [' ']) = key ++ [' '] :=
    dropWhile_head_false _ _ hc (by rw [head?_append_ne_nil key _ hne]; exact hhead) hcns
  rw [pstrip, h1, rstrip, List.reverse_append]
  have h2 : ([' '].reverse ++ key.reverse).dropWhile pyIsSpace = key.reverse.dropWhile pyIsSpace := by
    exact dropWhile_append_all _ _ _ (fun c hc => by
      simp only [List.reverse_singleton, List.mem_singleton] at hc
      subst hc; decide)
  rw [h2, dropWhile_head_false pyIsSpace key.reverse lc
    (by rw [List.head?_reverse]; exact hlast) hlcns, List.reverse_reverse]

theorem mkAssign_contains_eq (key value : Str) :
    (mkAssign key value).contains '=' = true := by
  rw [List.contains]
  exact List.elem_iff.mpr (by simp [mkAssign])

theorem assignsKey_ws_mkAssign (key value w : Str) (hk : validKey key = true)
    (hw : allWS w) : assignsKey key (w ++ mkAssign key value) = true := by
  obtain ⟨hc, hhead, hcns, hchash⟩ := key_head_not_space key hk
  obtain ⟨hne, hps, heq, hnl, hhash⟩ := validKey_parts key hk
  have hpsm := pstrip_ws_mkAssign key value w hk hw
  have hskip : isSkipLine (w ++ mkAssign key value) = false := by
    simp only [isSkipLine, hpsm]
    have h1 : (mkAssign key value).isEmpty = false := by
      cases hmk : mkAssign key value with
      | nil => exact absurd hmk (mkAssign_ne_nil key value)
      | cons a t => rfl
    have h2 : startsHash (mkAssign key value) = false := by
      simp only [startsHash, mkAssign_head? key value hne, hhead]
      simp only [Option.some.injEq]
      exact decide_eq_false hchash
    rw [h1, h2, mkAssign_contains_eq]
    rfl
  have hlhs : lineLhs (w ++ mkAssign key value) = key := by
    rw [lineLhs, hpsm, takeWhile_mkAssign key value heq, pstrip_key_space key hk]
  rw [assignsKey, hskip, hlhs]
  simp

theorem leadingWS_ws_mkAssign (key value w : Str) (hk : validKey key = true)
    (hw : allWS w) : leadingWS (w ++ mkAssign key value) = w := by
  obtain ⟨hc, hhead, hcns, _⟩ := key_head_not_space key hk
  obtain ⟨hne, _, _, _, _⟩ := validKey_parts key hk
  rw [leadingWS, takeWhile_append_all _ _ _ hw,
    takeWhile_head_false pyIsSpace _ hc
      (by rw [mkAssign_head? key value hne]; exact hhead) hcns,
    List.append_nil]

/-! ## Lemmas about the upsert scan loop -/

theorem upsertLines_ne_nil (key nl : Str) (L : List Str) :
    upsertLines key nl L ≠ [] := by
  cases L with
  | nil => simp [upsertLines]
  | cons l ls =>
    rw [upsertLines]
    split <;> simp

theorem upsertLines_no_match (key nl : Str) (L : List Str)
    (h : ∀ l ∈ L, assignsKey key l = false) :
    upsertLines key nl L = L ++ [nl] := by
  induction L with
  | nil => rfl
  | cons l ls ih =>
    rw [upsertLines, if_neg (by rw [h l (List.mem_cons_self _ _)]; simp),
      ih fun x hx => h x (List.mem_cons_of_mem _ hx), List.cons_append]

theorem upsertLines_first_match (key nl : Str) (P : List Str) (m : Str) (S : List Str)
    (hP : ∀ l ∈ P, assignsKey key l = false) (hm : assignsKey key m = true) :
    upsertLines key nl (P ++ m :: S) = P ++ (leadingWS m ++ nl) :: S := by
  induction P with
  | nil => simp [upsertLines, hm]
  | cons p ps ih =>
    rw [List.cons_append, upsertLines,
      if_neg (by rw [hP p (List.mem_cons_self _ _)]; simp),
      ih fun x hx => hP x (List.mem_cons_of_mem _ hx), List.cons_append]

theorem mem_upsertLines (key nl : Str) (L : List Str) (l : Str)
    (hl : l ∈ upsertLines key nl L) :
    l ∈ L ∨ l = nl ∨ ∃ x ∈ L, l = leadingWS x ++ nl := by
  induction L with
  | nil =>
    simp only [upsertLines, List.mem_singleton] at hl
    exact Or.inr (Or.inl hl)
  | cons a as ih =>
    rw [upsertLines] at hl
    by_cases ha : assignsKey key a = true
    · rw [if_pos ha] at hl
      rcases List.mem_cons.mp hl with h | h
      · exact Or.inr (Or.inr ⟨a, List.mem_cons_self _ _, h⟩)
      · exact Or.inl (List.mem_cons_of_mem _ h)
    · rw [if_neg ha] at hl
      rcases List.mem_cons.mp hl with h | h
      · exact Or.inl (h ▸ List.mem_cons_self _ _)
      · rcases ih h with h2 | h2 | ⟨x, hx, h2⟩
        · exact Or.inl (List.mem_cons_of_mem _ h2)
        · exact Or.inr (Or.inl h2)
        · exact Or.inr (Or.inr ⟨x, List.mem_cons_of_mem _ hx, h2⟩)

theorem filter_eq_singleton_decomp {α : Type} (p : α → Bool) (L : List α) (m : α)
    (h : L.filter p = [m]) :
    ∃ P S, L = P ++ m :: S ∧ (∀ l ∈ P, p l = false) ∧ p m = true ∧
      (∀ l ∈ S, p l = false) := by
  induction L with
  | nil => cases h
  | cons a as ih =>
    by_cases ha : p a
    · rw [List.filter_cons_of_pos ha, List.cons.injEq] at h
      refine ⟨[], as, by rw [h.1, List.nil_append], by simp, h.1 ▸ ha, ?_⟩
      exact fun l hl => Bool.eq_false_iff.mpr fun hc =>
        (List.filter_eq_nil_iff.mp h.2 l hl) hc
    · rw [List.filter_cons_of_neg ha] at h
      obtain ⟨P, S, hdecomp, hP, hpm, hS⟩ := ih h
      exact ⟨a :: P, S, by rw [hdecomp, List.cons_append],
        fun l hl => by
          rcases List.mem_cons.mp hl with h2 | h2
          · subst h2; exact Bool.eq_false_iff.mpr ha
          · exact hP l h2,
        hpm, hS⟩

theorem getLast?_append_cons {α : Type} (P : List α) (x : α) (S : List α) :
    (P ++ x :: S).getLast? = (x :: S).getLast? :=
  getLast?_append_ne_nil P (x :: S) (by simp)

/-- String-level/line-level correspondence for `_set_tfvar_value`: when the
inserted line is newline-free and the resulting line list does not end with
an empty line, splitting the produced text recovers exactly the upserted
line list. -/
theorem pySplitlines_set_tfvar (content key value : Str)
    (hnoNL : ∀ c ∈ mkAssign key value, ¬ c = '\n')
    (hlast : ¬ (upsertLines key (mkAssign key value) (pySplitlines content)).getLast?
      = some ([] : Str)) :
    pySplitlines (set_tfvar_value content key value)
      = upsertLines key (mkAssign key value) (pySplitlines content) := by
  rw [set_tfvar_value]
  apply pySplitlines_roundtrip _ (upsertLines_ne_nil _ _ _) _ hlast
  intro l hl
  rcases mem_upsertLines _ _ _ l hl with h | h | ⟨x, hx, h⟩
  · exact mem_pySplitlines_noNL content l h
  · subst h; exact hnoNL
  · subst h
    intro c hc
    rcases List.mem_append.mp hc with h2 | h2
    · exact mem_pySplitlines_noNL content x hx c (List.takeWhile_subset _ h2)
    · exact hnoNL c h2

/-- Claim C1, counterexample: the claim quantifies over all texts `T`, but
on a text containing two assignments of the key, `upsert(upsert(T,K,V1),K,V2)`
leaves two lines assigning the key — the first carrying `V2`, the second
still carrying its stale original value — not exactly one. -/
theorem C1_counterexample :
    ((pySplitlines (set_tfvar_value
        (set_tfvar_value ("a = \"1\"\na = \"2\"\n").toList ['a'] ['x']) ['a'] ['y'])).filter
      (assignsKey ['a']))
      = [("a = \"y\"").toList, ("a = \"2\"").toList] ∧
    ((pySplitlines (set_tfvar_value
        (set_tfvar_value ("a = \"1\"\na = \"2\"\n").toList ['a'] ['x']) ['a'] ['y'])).filter
      (assignsKey ['a'])).length = 2 := by
  constructor
  · decide
  · decide

/-- Claim C1 (amended): for a well-formed key (nonempty, trimmed, free of
`=` and newline, not starting `#`), newline-free values, a text whose lines
assign the key at most once, and whose final line is nonempty,
`upsert(upsert(T,K,V1),K,V2)` yields exactly one line assigning `K` —
`K = "V2"` under the original indentation — and the lines not assigning `K`
are exactly those of `T`, in content and order. -/
theorem C1_upsert_supersedes (T K V1 V2 : Str) (hK : validKey K = true)
    (hV1 : ¬ '\n' ∈ V1) (hV2 : ¬ '\n' ∈ V2)
    (hdup : ((pySplitlines T).filter (assignsKey K)).length ≤ 1)
    (hlast : ¬ (pySplitlines T).getLast? = some ([] : Str)) :
    ∃ ind, allWS ind ∧
      (pySplitlines (set_tfvar_value (set_tfvar_value T K V1) K V2)).filter
          (assignsKey K) = [ind ++ mkAssign K V2] ∧
      (pySplitlines (set_tfvar_value (set_tfvar_value T K V1) K V2)).filter
          (fun l => !(assignsKey K l))
        = (pySplitlines T).filter (fun l => !(assignsKey K l)) := by
  obtain ⟨hKne, hKps, hKeq, hKnl, hKhash⟩ := validKey_parts K hK
  have hm1nl := mkAssign_noNL K V1 hKnl hV1
  have hm2nl := mkAssign_noNL K V2 hKnl hV2
  have hass1 : assignsKey K (mkAssign K V1) = true := by
    have := assignsKey_ws_mkAssign K V1 [] hK (fun c hc => absurd hc (List.not_mem_nil c))
    rwa [List.nil_append] at this
  have hass2 : assignsKey K (mkAssign K V2) = true := by
    have := assignsKey_ws_mkAssign K V2 [] hK (fun c hc => absurd hc (List.not_mem_nil c))
    rwa [List.nil_append] at this
  have hlws1 : leadingWS (mkAssign K V1) = [] := by
    have := leadingWS_ws_mkAssign K V1 [] hK (fun c hc => absurd hc (List.not_mem_nil c))
    rwa [List.nil_append] at this
  cases hf : (pySplitlines T).filter (assignsKey K) with
  | nil =>
    have hnone : ∀ l ∈ pySplitlines T, assignsKey K l = false := by
      intro l hl
      exact Bool.eq_false_iff.mpr fun hc => List.filter_eq_nil_iff.mp hf l hl hc
    have hup1 : upsertLines K (mkAssign K V1) (pySplitlines T)
        = pySplitlines T ++ [mkAssign K V1] :=
      upsertLines_no_match _ _ _ hnone
    have hlines1 : pySplitlines (set_tfvar_value T K V1)
        = pySplitlines T ++ [mkAssign K V1] := by
      rw [pySplitlines_set_tfvar T K V1 hm1nl (by
        rw [hup1, getLast?_append_ne_nil _ _ (by simp)]
        intro hcontra
        exact mkAssign_ne_nil K V1 (by simpa using hcontra)), hup1]
    have hup2 : upsertLines K (mkAssign K V2) (pySplitlines T ++ [mkAssign K V1])
        = pySplitlines T ++ [mkAssign K V2] := by
      have h := upsertLines_first_match K (mkAssign K V2) (pySplitlines T)
        (mkAssign K V1) [] hnone hass1
      rw [h, hlws1, List.nil_append]
    have hlines2 : pySplitlines (set_tfvar_value (set_tfvar_value T K V1) K V2)
        = pySplitlines T ++ [mkAssign K V2] := by
      rw [pySplitlines_set_tfvar _ K V2 hm2nl (by
        rw [hlines1, hup2, getLast?_append_ne_nil _ _ (by simp)]
        intro hcontra
        exact mkAssign_ne_nil K V2 (by simpa using hcontra))]
      rw [hlines1, hup2]
    refine ⟨[], fun c hc => absurd hc (List.not_mem_nil c), ?_, ?_⟩
    · simp only [hlines2, List.filter_append, hf, List.nil_append,
        List.filter_cons_of_pos hass2, List.filter_nil]
    · rw [hlines2, List.filter_append]
      have hfil : List.filter (fun l => !(assignsKey K l)) [mkAssign K V2] = [] := by
        simp [List.filter_cons, hass2]
      rw [hfil, List.append_nil]
  | cons m rest =>
    have hrest : rest = [] := by
      cases rest with
      | nil => rfl
      | cons r rs => rw [hf] at hdup; simp at hdup
    subst hrest
    obtain ⟨P, S, hLPS, hP, hm, hS⟩ := filter_eq_singleton_decomp _ _ _ hf
    have hassm1 : assignsKey K (leadingWS m ++ mkAssign K V1) = true :=
      assignsKey_ws_mkAssign K V1 (leadingWS m) hK (fun c hc => List.mem_takeWhile_imp hc)
    have hassm2 : assignsKey K (leadingWS m ++ mkAssign K V2) = true :=
      assignsKey_ws_mkAssign K V2 (leadingWS m) hK (fun c hc => List.mem_takeWhile_imp hc)
    have hlwsm1 : leadingWS (leadingWS m ++ mkAssign K V1) = leadingWS m :=
      leadingWS_ws_mkAssign K V1 (leadingWS m) hK (fun c hc => List.mem_takeWhile_imp hc)
    have hlastS : ∀ x : Str, x ≠ [] → ¬ (P ++ x :: S).getLast? = some ([] : Str) := by
      intro x hx
      rw [getLast?_append_cons]
      cases S with
      | nil =>
        intro hcontra
        exact hx (by simpa using hcontra)
      | cons s0 S2 =>
        rw [getLast?_cons_ne_nil _ _ (by simp)]
        have heq2 : (pySplitlines T).getLast? = (s0 :: S2).getLast? := by
          rw [hLPS, getLast?_append_cons, getLast?_cons_ne_nil _ _ (by simp)]
        rw [← heq2]
        exact hlast
    have hup1 : upsertLines K (mkAssign K V1) (pySplitlines T)
        = P ++ (leadingWS m ++ mkAssign K V1) :: S := by
      rw [hLPS]; exact upsertLines_first_match _ _ _ _ _ hP hm
    have hlines1 : pySplitlines (set_tfvar_value T K V1)
        = P ++ (leadingWS m ++ mkAssign K V1) :: S := by
      rw [pySplitlines_set_tfvar T K V1 hm1nl (by
        rw [hup1]
        exact hlastS _ (List.append_ne_nil_of_right_ne_nil _ (mkAssign_ne_nil K V1))), hup1]
    have hup2 : upsertLines K (mkAssign K V2) (P ++ (leadingWS m ++ mkAssign K V1) :: S)
        = P ++ (leadingWS m ++ mkAssign K V2) :: S := by
      rw [upsertLines_first_match K (mkAssign K V2) P _ S hP hassm1, hlwsm1]
    have hlines2 : pySplitlines (set_tfvar_value (set_tfvar_value T K V1) K V2)
        = P ++ (leadingWS m ++ mkAssign K V2) :: S := by
      rw [pySplitlines_set_tfvar _ K V2 hm2nl (by
        rw [hlines1, hup2]
        exact hlastS _ (List.append_ne_nil_of_right_ne_nil _ (mkAssign_ne_nil K V2)))]
      rw [hlines1, hup2]
    refine ⟨leadingWS m, fun c hc => List.mem_takeWhile_imp hc, ?_, ?_⟩
    · rw [hlines2, List.filter_append, List.filter_cons_of_pos hassm2,
        List.filter_eq_nil_iff.mpr (fun l hl => by rw [hP l hl]; simp),
        List.filter_eq_nil_iff.mpr (fun l hl => by rw [hS l hl]; simp),
        List.nil_append]
    · rw [hlines2, hLPS]
      simp only [List.filter_append, List.filter_cons, hassm2, hm,
        Bool.not_true, Bool.false_eq_true, if_false]

/-- Claim C1, witness instantiation. -/
theorem C1_witness :
    ∃ ind, allWS ind ∧
      (pySplitlines (set_tfvar_value (set_tfvar_value
          ("x = \"1\"\n  name = \"old\"\n").toList ("name").toList ("a").toList)
          ("name").toList ("b").toList)).filter
          (assignsKey ("name").toList) = [ind ++ mkAssign ("name").toList ("b").toList] ∧
      (pySplitlines (set_tfvar_value (set_tfvar_value
          ("x = \"1\"\n  name = \"old\"\n").toList ("name").toList ("a").toList)
          ("name").toList ("b").toList)).filter
          (fun l => !(assignsKey ("name").toList l))
        = (pySplitlines ("x = \"1\"\n  name = \"old\"\n").toList).filter
          (fun l => !(assignsKey ("name").toList l)) :=
  C1_upsert_supersedes ("x = \"1\"\n  name = \"old\"\n").toList ("name").toList
    ("a").toList ("b").toList (by decide) (by decide) (by decide) (by decide) (by decide)

theorem ensureNL_getLast? (s : Str) : (ensureNL s).getLast? = some '\n' := by
  rw [ensureNL]
  by_cases h : endsNL s = true
  · rw [if_pos h, ← beq_iff_eq (a := s.getLast?) (b := some '\n')]
    exact h
  · rw [if_neg (by simp [h]), getLast?_append_ne_nil _ _ (by simp)]
    rfl

/-- Claim C2, counterexample: on a text with three trailing newlines whose
key is already present, the result of `upsert` ends with two newlines, not
exactly one — the character before the final newline is again a newline. -/
theorem C2_counterexample :
    set_tfvar_value ("k = \"0\"\n\n\n").toList ("k").toList ("v").toList
      = ("k = \"v\"\n\n").toList ∧
    (set_tfvar_value ("k = \"0\"\n\n\n").toList ("k").toList
        ("v").toList).dropLast.getLast? = some '\n' := by
  constructor
  · decide
  · decide

/-- Claim C2 (amended): upserting a key absent from `T` (with key and value
newline-free) appends exactly one new line `key = "value"` after the lines
of `T`, and the result then ends with exactly one trailing newline,
regardless of how many trailing newlines `T` had; in general every result
of `upsert` ends with at least one trailing newline. -/
theorem C2_append_absent (T K V : Str)
    (habs : ∀ l ∈ pySplitlines T, assignsKey K l = false)
    (hKnl : ¬ '\n' ∈ K) (hVnl : ¬ '\n' ∈ V) :
    pySplitlines (set_tfvar_value T K V) = pySplitlines T ++ [mkAssign K V] ∧
    (set_tfvar_value T K V).getLast? = some '\n' ∧
    ¬ (set_tfvar_value T K V).dropLast.getLast? = some '\n' ∧
    ∀ T2 K2 V2 : Str, (set_tfvar_value T2 K2 V2).getLast? = some '\n' := by
  have hmnl := mkAssign_noNL K V hKnl hVnl
  have hup : upsertLines K (mkAssign K V) (pySplitlines T)
      = pySplitlines T ++ [mkAssign K V] :=
    upsertLines_no_match _ _ _ habs
  have hulast : (pySplitlines T ++ [mkAssign K V]).getLast? = some (mkAssign K V) := by
    rw [getLast?_append_ne_nil _ _ (by simp)]
    rfl
  have hjlast : (joinWith '\n' (pySplitlines T ++ [mkAssign K V])).getLast? = some '"' := by
    rw [getLast?_joinWith '\n' _ (mkAssign K V) hulast (mkAssign_ne_nil K V)]
    exact mkAssign_getLast? K V
  have hje : set_tfvar_value T K V
      = joinWith '\n' (pySplitlines T ++ [mkAssign K V]) ++ ['\n'] := by
    rw [set_tfvar_value, hup, ensureNL, if_neg (by simp [endsNL, hjlast])]
  refine ⟨?_, ?_, ?_, ?_⟩
  · rw [pySplitlines_set_tfvar T K V hmnl (by
      rw [hup, hulast]
      intro hcontra
      exact mkAssign_ne_nil K V (by simpa using hcontra)), hup]
  · rw [hje, getLast?_append_ne_nil _ _ (by simp)]
    rfl
  · rw [hje, List.dropLast_concat, hjlast]
    simp
  · intro T2 K2 V2
    rw [set_tfvar_value]
    exact ensureNL_getLast? _

/-- Claim C2, witness instantiation (a text with three trailing newlines and
an absent key). -/
theorem C2_witness :
    pySplitlines (set_tfvar_value ("a = \"1\"\n\n\n").toList ("b").toList ("2").toList)
      = pySplitlines ("a = \"1\"\n\n\n").toList ++ [mkAssign ("b").toList ("2").toList] ∧
    (set_tfvar_value ("a = \"1\"\n\n\n").toList ("b").toList ("2").toList).getLast?
      = some '\n' ∧
    ¬ (set_tfvar_value ("a = \"1\"\n\n\n").toList ("b").toList
        ("2").toList).dropLast.getLast? = some '\n' ∧
    ∀ T2 K2 V2 : Str, (set_tfvar_value T2 K2 V2).getLast? = some '\n' :=
  C2_append_absent ("a = \"1\"\n\n\n").toList ("b").toList ("2").toList
    (by decide) (by decide) (by decide)

/-- Claim C3: with capture enabled and echo policy `on_error`, nothing is
forwarded to the standard streams while the process runs; after exit, the
full stdout buffer followed by the full stderr buffer is written if and
only if the exit code is nonzero; in particular a failing command that
wrote "A\n" to stdout and "B\n" to stderr produces final terminal output
exactly "A\nB\n" (stdout block, then stderr block). -/
theorem C3_on_error_replay :
    (∀ (interleaving : List TermWrite) (rc : Int) (obuf ebuf : List String),
      liveWrites Echo.on_error interleaving = [] ∧
      terminalWrites Echo.on_error interleaving rc obuf ebuf
        = if rc ≠ 0 then
            obuf.map (fun l => (StdStream.out, l))
              ++ ebuf.map (fun l => (StdStream.err, l))
          else []) ∧
    terminalWrites Echo.on_error [(StdStream.out, "A\n"), (StdStream.err, "B\n")] 1
        ["A\n"] ["B\n"]
      = [(StdStream.out, "A\n"), (StdStream.err, "B\n")] ∧
    writesText (terminalWrites Echo.on_error
        [(StdStream.out, "A\n"), (StdStream.err, "B\n")] 1 ["A\n"] ["B\n"])
      = "A\nB\n" := by
  refine ⟨?_, rfl, rfl⟩
  intro interleaving rc obuf ebuf
  constructor
  · rw [liveWrites, if_neg (by simp)]
  · rw [terminalWrites, liveWrites, if_neg (by simp), List.nil_append, replayWrites]
    by_cases hrc : rc = 0
    · rw [if_neg (by simp [hrc]), if_neg (by simp [hrc])]
    · rw [if_pos ⟨rfl, hrc⟩, if_pos hrc]

theorem truthy_pyOr (a b : Option String) :
    truthy (pyOr a b) = (truthy a || truthy b) := by
  rw [pyOr]
  by_cases h : truthy a = true
  · rw [if_pos h, h, Bool.true_or]
  · rw [if_neg (by simp [h]), Bool.eq_false_iff.mpr h, Bool.false_or]

theorem azure_context_cond_true (env : String → Option String)
    (azShow : Option (String → Option String))
    (hcond : (truthy (pyOr (env "AZURE_SUBSCRIPTION_ID")
        (env "ARM_SUBSCRIPTION_ID")) &&
        truthy (pyOr (env "AZURE_TENANT_ID") (env "ARM_TENANT_ID"))) = true) :
    azure_context env azShow
      = (Except.ok
          ⟨(pyOr (env "AZURE_SUBSCRIPTION_ID") (env "ARM_SUBSCRIPTION_ID")).getD "",
           (pyOr (env "AZURE_TENANT_ID") (env "ARM_TENANT_ID")).getD ""⟩,
         false) := by
  rw [azure_context.eq_def]
  simp only [hcond, if_true]

theorem azure_context_cond_false (env : String → Option String)
    (azShow : Option (String → Option String))
    (hcond : ¬ ((truthy (pyOr (env "AZURE_SUBSCRIPTION_ID")
        (env "ARM_SUBSCRIPTION_ID")) &&
        truthy (pyOr (env "AZURE_TENANT_ID") (env "ARM_TENANT_ID"))) = true)) :
    azure_context env azShow
      = match azShow with
        | none => (Except.error IdErr.parseFailure, true)
        | some data =>
          match data "id", data "tenantId" with
          | some sub, some ten => (Except.ok ⟨sub, ten⟩, true)
          | _, _ => (Except.error IdErr.missingField, true) := by
  rw [azure_context.eq_def]
  simp only [Bool.not_eq_true] at hcond
  simp only [hcond, Bool.false_eq_true, if_false]

theorem azure_context_cond_iff (env : String → Option String) :
    (truthy (pyOr (env "AZURE_SUBSCRIPTION_ID")
        (env "ARM_SUBSCRIPTION_ID")) &&
        truthy (pyOr (env "AZURE_TENANT_ID") (env "ARM_TENANT_ID"))) = true ↔
    ((truthy (env "AZURE_SUBSCRIPTION_ID") = true ∨
      truthy (env "ARM_SUBSCRIPTION_ID") = true) ∧
     (truthy (env "AZURE_TENANT_ID") = true ∨
      truthy (env "ARM_TENANT_ID") = true)) := by
  rw [Bool.and_eq_true, truthy_pyOr, truthy_pyOr, Bool.or_eq_true, Bool.or_eq_true]

/-- Claim C7, counterexample: with `AZURE_SUBSCRIPTION_ID` and
`ARM_TENANT_ID` set (and the other two variables absent), neither
recognized pair is fully present, yet `azure_context` returns the
environment values without invoking the external identity query —
contradicting the claim's "otherwise it invokes the external command". -/
theorem C7_counterexample :
    pairPresent envMixedPair "AZURE_SUBSCRIPTION_ID" "AZURE_TENANT_ID" = false ∧
    pairPresent envMixedPair "ARM_SUBSCRIPTION_ID" "ARM_TENANT_ID" = false ∧
    (azure_context envMixedPair none).2 = false ∧
    (azure_context envMixedPair none).1
      = Except.ok ⟨"sub-env", "ten-env"⟩ := by
  refine ⟨by decide, by decide, rfl, rfl⟩

/-- Claim C7 (amended): whenever some subscription variable
(`AZURE_SUBSCRIPTION_ID`, else `ARM_SUBSCRIPTION_ID`) and some tenant
variable (`AZURE_TENANT_ID`, else `ARM_TENANT_ID`) are present and
nonempty — the two may come from different pairs — `azure_context`
returns exactly those environment values (the `AZURE_*` variable
preferred per field) and does not invoke the external identity query;
the external query is skipped in exactly these situations. When the
query does run: a response carrying both `id` and `tenantId` yields
exactly those two values, a response missing either field is a fatal
`IdentityResolutionFailed` (missing field), and an unparseable response
is a fatal `IdentityResolutionFailed` (parse failure). -/
theorem C7_env_preference (env : String → Option String)
    (azShow : Option (String → Option String)) :
    (((truthy (env "AZURE_SUBSCRIPTION_ID") = true ∨
       truthy (env "ARM_SUBSCRIPTION_ID") = true) ∧
      (truthy (env "AZURE_TENANT_ID") = true ∨
       truthy (env "ARM_TENANT_ID") = true)) →
      azure_context env azShow
        = (Except.ok
            ⟨(if truthy (env "AZURE_SUBSCRIPTION_ID") then env "AZURE_SUBSCRIPTION_ID"
               else env "ARM_SUBSCRIPTION_ID").getD "",
             (if truthy (env "AZURE_TENANT_ID") then env "AZURE_TENANT_ID"
               else env "ARM_TENANT_ID").getD ""⟩, false)) ∧
    ((azure_context env azShow).2 = false ↔
      ((truthy (env "AZURE_SUBSCRIPTION_ID") = true ∨
        truthy (env "ARM_SUBSCRIPTION_ID") = true) ∧
       (truthy (env "AZURE_TENANT_ID") = true ∨
        truthy (env "ARM_TENANT_ID") = true))) ∧
    (∀ data, azShow = some data → (azure_context env azShow).2 = true →
      (∀ sub ten, data "id" = some sub → data "tenantId" = some ten →
        (azure_context env azShow).1 = Except.ok ⟨sub, ten⟩) ∧
      ((data "id" = none ∨ data "tenantId" = none) →
        (azure_context env azShow).1 = Except.error IdErr.missingField)) ∧
    (azShow = none → (azure_context env azShow).2 = true →
      (azure_context env azShow).1 = Except.error IdErr.parseFailure) := by
  refine ⟨?_, ?_, ?_, ?_⟩
  · intro hmixed
    have hcond : (truthy (pyOr (env "AZURE_SUBSCRIPTION_ID")
        (env "ARM_SUBSCRIPTION_ID")) &&
        truthy (pyOr (env "AZURE_TENANT_ID") (env "ARM_TENANT_ID"))) = true :=
      (azure_context_cond_iff env).mpr hmixed
    rw [azure_context_cond_true env azShow hcond]
    rfl
  · by_cases hcond : (truthy (pyOr (env "AZURE_SUBSCRIPTION_ID")
        (env "ARM_SUBSCRIPTION_ID")) &&
        truthy (pyOr (env "AZURE_TENANT_ID") (env "ARM_TENANT_ID"))) = true
    · rw [azure_context_cond_true env azShow hcond]
      exact iff_of_true rfl ((azure_context_cond_iff env).mp hcond)
    · rw [azure_context_cond_false env azShow hcond]
      have hrhs : ¬ ((truthy (env "AZURE_SUBSCRIPTION_ID") = true ∨
          truthy (env "ARM_SUBSCRIPTION_ID") = true) ∧
         (truthy (env "AZURE_TENANT_ID") = true ∨
          truthy (env "ARM_TENANT_ID") = true)) :=
        fun h => hcond ((azure_context_cond_iff env).mpr h)
      cases azShow with
      | none => exact iff_of_false (by simp) hrhs
      | some d =>
        cases h1 : d "id" with
        | none => exact iff_of_false (by simp [h1]) hrhs
        | some sub =>
          cases h2 : d "tenantId" with
          | none => exact iff_of_false (by simp [h1, h2]) hrhs
          | some ten => exact iff_of_false (by simp [h1, h2]) hrhs
  · intro data hshow hcalled
    subst hshow
    by_cases hcond : (truthy (pyOr (env "AZURE_SUBSCRIPTION_ID")
        (env "ARM_SUBSCRIPTION_ID")) &&
        truthy (pyOr (env "AZURE_TENANT_ID") (env "ARM_TENANT_ID"))) = true
    · rw [azure_context_cond_true env (some data) hcond] at hcalled
      cases hcalled
    · rw [azure_context_cond_false env (some data) hcond]
      constructor
      · intro sub ten h1 h2
        simp only [h1, h2]
      · intro hmiss
        rcases hmiss with h1 | h2
        · cases htid : data "tenantId" with
          | none => simp only [h1, htid]
          | some ten => simp only [h1, htid]
        · cases hid2 : data "id" with
          | none => simp only [hid2, h2]
          | some sub => simp only [hid2, h2]
  · intro hshow hcalled
    subst hshow
    by_cases hcond : (truthy (pyOr (env "AZURE_SUBSCRIPTION_ID")
        (env "ARM_SUBSCRIPTION_ID")) &&
        truthy (pyOr (env "AZURE_TENANT_ID") (env "ARM_TENANT_ID"))) = true
    · rw [azure_context_cond_true env none hcond] at hcalled
      cases hcalled
    · rw [azure_context_cond_false env none hcond]

/-- Claim C7, witness instantiation on the mixed-pair environment: the
subscription id from the primary pair and the tenant id from the fallback
pair are returned without any external call. -/
theorem C7_witness :
    azure_context envMixedPair none
      = (Except.ok
          ⟨(if truthy (envMixedPair "AZURE_SUBSCRIPTION_ID")
              then envMixedPair "AZURE_SUBSCRIPTION_ID"
              else envMixedPair "ARM_SUBSCRIPTION_ID").getD "",
           (if truthy (envMixedPair "AZURE_TENANT_ID")
              then envMixedPair "AZURE_TENANT_ID"
              else envMixedPair "ARM_TENANT_ID").getD ""⟩, false) :=
  (C7_env_preference envMixedPair none).1 (by decide)

/-- Claim C8, counterexample: a present override containing `<` (a
placeholder never replaced) makes resolution fail even though a source is
present, so "fails if and only if all four sources are absent" is false. -/
theorem C8_counterexample :
    truthyL (some ("<registry>").toList) = true ∧
    _registry_login_server (some ("<registry>").toList) none none none
      = Except.error RegistryErr.registryEndpointRequired := by
  refine ⟨by decide, rfl⟩

/-- Claim C8 (amended): the endpoint is the first present (truthy) value
among the explicit override, the two environment variables, and the
stripped variable-file value, in that order; resolution fails exactly when
that resolved value is empty, contains `<`, or is whitespace-only — in
particular it fails when all four sources are absent, but can also fail on
a present placeholder or blank value. -/
theorem getD_pyOrL (a b : Option Str) :
    (pyOrL a b).getD [] = if truthyL a = true then a.getD [] else b.getD [] := by
  rw [pyOrL]
  by_cases h : truthyL a = true
  · rw [if_pos h, if_pos h]
  · rw [if_neg (by simp [h]), if_neg h]

theorem registry_value_eq_firstTruthyL (override envAz envReg tfvarsVal : Option Str) :
    (pyOrL override (pyOrL envAz (pyOrL envReg
        (some (pstrip (tfvarsVal.getD [])))))).getD []
      = firstTruthyL [override, envAz, envReg,
          some (pstrip (tfvarsVal.getD []))] := by
  rw [getD_pyOrL, getD_pyOrL, getD_pyOrL]
  simp only [firstTruthyL]
  by_cases h1 : truthyL override = true
  · rw [if_pos h1, if_pos h1]
  · rw [if_neg h1, if_neg h1]
    by_cases h2 : truthyL envAz = true
    · rw [if_pos h2, if_pos h2]
    · rw [if_neg h2, if_neg h2]
      by_cases h3 : truthyL envReg = true
      · rw [if_pos h3, if_pos h3]
      · rw [if_neg h3, if_neg h3]
        cases hstrip : pstrip (tfvarsVal.getD []) with
        | nil => simp [truthyL, firstTruthyL]
        | cons a as => simp [truthyL]

theorem C8_registry_endpoint (override envAz envReg tfvarsVal : Option Str) :
    (_registry_login_server override envAz envReg tfvarsVal
      = (let v := firstTruthyL [override, envAz, envReg,
           some (pstrip (tfvarsVal.getD []))]
         if v.isEmpty || v.contains '<' || (pstrip v).isEmpty then
           Except.error RegistryErr.registryEndpointRequired
         else Except.ok v)) ∧
    ((truthyL override = false ∧ truthyL envAz = false ∧ truthyL envReg = false ∧
      truthyL tfvarsVal = false) →
      _registry_login_server override envAz envReg tfvarsVal
        = Except.error RegistryErr.registryEndpointRequired) := by
  have hmain : _registry_login_server override envAz envReg tfvarsVal
      = (let v := firstTruthyL [override, envAz, envReg,
           some (pstrip (tfvarsVal.getD []))]
         if v.isEmpty || v.contains '<' || (pstrip v).isEmpty then
           Except.error RegistryErr.registryEndpointRequired
         else Except.ok v) := by
    rw [_registry_login_server]
    rw [registry_value_eq_firstTruthyL]
  refine ⟨hmain, ?_⟩
  rintro ⟨h1, h2, h3, h4⟩
  have ht : tfvarsVal.getD [] = [] := by
    cases tfvarsVal with
    | none => rfl
    | some s =>
      cases s with
      | nil => rfl
      | cons a as => simp [truthyL] at h4
  have hv : firstTruthyL [override, envAz, envReg,
      some (pstrip (tfvarsVal.getD []))] = [] := by
    simp only [firstTruthyL, if_neg (by simp [h1] : ¬ truthyL override = true),
      if_neg (by simp [h2] : ¬ truthyL envAz = true),
      if_neg (by simp [h3] : ¬ truthyL envReg = true), ht]
    rfl
  rw [hmain]
  simp only [hv]
  rfl

/-- Claim C8, witness instantiation (all four sources absent, failing as
the amended claim requires). -/
theorem C8_witness :
    _registry_login_server none none none none
      = Except.error RegistryErr.registryEndpointRequired :=
  (C8_registry_endpoint none none none none).2 ⟨rfl, rfl, rfl, rfl⟩

/-! ## Token Registry lemmas -/

theorem contains_true_of_mem (s : Str) (c : Char) (h : c ∈ s) :
    s.contains c = true := by
  rw [List.contains]
  exact List.elem_iff.mpr h

theorem not_mem_of_contains_false (s : Str) (c : Char) (h : s.contains c = false) :
    ¬ c ∈ s := by
  intro hm
  rw [contains_true_of_mem s c hm] at h
  cases h

theorem validComponent_parts (s : Str) (h : validComponent s = true) :
    ¬ ':' ∈ s ∧ ¬ ';' ∈ s := by
  rw [validComponent, Bool.and_eq_true, Bool.not_eq_true', Bool.not_eq_true'] at h
  exact ⟨not_mem_of_contains_false s ':' h.1, not_mem_of_contains_false s ';' h.2⟩

theorem takeWhile_ne_append (sep : Char) (l r : Str) (h : ¬ sep ∈ l) :
    (l ++ sep :: r).takeWhile (fun c => c ≠ sep) = l := by
  induction l with
  | nil =>
    rw [List.nil_append]
    exact List.takeWhile_cons_of_neg (by simp)
  | cons a as ih =>
    have ha : ¬ a = sep := fun hc => h (hc ▸ List.mem_cons_self _ _)
    rw [List.cons_append,
      List.takeWhile_cons_of_pos (by simp [ha]),
      ih fun hc => h (List.mem_cons_of_mem _ hc)]

theorem dropWhile_ne_append (sep : Char) (l r : Str) (h : ¬ sep ∈ l) :
    (l ++ sep :: r).dropWhile (fun c => c ≠ sep) = sep :: r := by
  induction l with
  | nil =>
    rw [List.nil_append]
    exact List.dropWhile_cons_of_neg (by simp)
  | cons a as ih =>
    have ha : ¬ a = sep := fun hc => h (hc ▸ List.mem_cons_self _ _)
    rw [List.cons_append,
      List.dropWhile_cons_of_pos (by simp [ha]),
      ih fun hc => h (List.mem_cons_of_mem _ hc)]

theorem splitOnce_append (sep : Char) (l r : Str) (h : ¬ sep ∈ l) :
    splitOnce sep (l ++ sep :: r) = (l, r) := by
  rw [splitOnce, takeWhile_ne_append sep l r h, dropWhile_ne_append sep l r h]
  rfl

theorem parse_name_value_clean (name value : Str)
    (hnne : ¬ name.isEmpty = true) (hvne : ¬ value.isEmpty = true)
    (hnps : pstrip name = name) (hvps : pstrip value = value)
    (hnv : validComponent name = true) (hvv : validComponent value = true) :
    _parse_name_value (name ++ ':' :: value) = Except.ok (name, value) := by
  have hcolon : ¬ ':' ∈ name := (validComponent_parts name hnv).1
  rw [_parse_name_value]
  simp only [contains_true_of_mem (name ++ ':' :: value) ':'
    (List.mem_append.mpr (Or.inr (List.mem_cons_self _ _))), if_true,
    splitOnce_append ':' name value hcolon, hnps, hvps]
  rw [if_neg (by simp [hnne, hvne]), if_neg (by simp [hnv, hvv])]

theorem lookupA_insertA (tokens : TokenMap) (n v : Str) :
    lookupA (insertA tokens n v) n = some v := by
  induction tokens with
  | nil => simp [insertA, lookupA]
  | cons p t ih =>
    rcases p with ⟨k, w⟩
    rw [insertA]
    by_cases hk : k = n
    · rw [if_pos hk, lookupA, if_pos hk]
    · rw [if_neg hk, lookupA, if_neg hk]
      exact ih

/-- Claim C9: applying an `add` entry whose name equals an existing name
raises no error and overwrites the value, whereas a non-numeric `generate`
entry with an existing name fails with `TokenNameCollision`. Hypotheses:
the name is present, both components are nonempty, trimmed and free of the
set's delimiters, and the name is not purely numeric. -/
theorem C9_collision_asymmetry (tokens : TokenMap) (name value : Str)
    (vals : Nat → Str)
    (hmem : name ∈ tokens.map Prod.fst)
    (hnne : ¬ name.isEmpty = true) (hvne : ¬ value.isEmpty = true)
    (hnps : pstrip name = name) (hvps : pstrip value = value)
    (hnv : validComponent name = true) (hvv : validComponent value = true)
    (hnd : pyIsDigit name = false) :
    manage_tokens_core vals tokens [name ++ ':' :: value] [] []
      = Except.ok (insertA tokens name value, []) ∧
    lookupA (insertA tokens name value) name = some value ∧
    manage_tokens_core vals tokens [] [] [name]
      = Except.error (TokErr.nameCollision name) := by
  refine ⟨?_, lookupA_insertA tokens name value, ?_⟩
  · rw [manage_tokens_core]
    simp only [processGenerate, processAdd,
      parse_name_value_clean name value hnne hvne hnps hvps hnv hvv, processRemove]
  · rw [manage_tokens_core]
    simp only [processGenerate, hnd, Bool.false_eq_true, if_false, hnps]
    rw [if_neg (by simp [hnne]), if_neg (by simp [hnv]), if_pos hmem]

/-- Claim C9, witness instantiation. -/
theorem C9_witness :
    manage_tokens_core (fun _ => ['z']) [(['a'], ['1'])]
        [("a:9").toList] [] []
      = Except.ok (insertA [(['a'], ['1'])] ['a'] ['9'], []) ∧
    lookupA (insertA [(['a'], ['1'])] ['a'] ['9']) ['a'] = some ['9'] ∧
    manage_tokens_core (fun _ => ['z']) [(['a'], ['1'])] [] [] [['a']]
      = Except.error (TokErr.nameCollision ['a']) :=
  C9_collision_asymmetry [(['a'], ['1'])] ['a'] ['9'] (fun _ => ['z'])
    (by decide) (by decide) (by decide) (by decide) (by decide)
    (by decide) (by decide) (by decide)

/-! ## Ordering lemmas for the sorted re-serialization -/

theorem strLt_trichotomy (a b : Str) : strLt a b = true ∨ a = b ∨ strLt b a = true := by
  induction a generalizing b with
  | nil =>
    cases b with
    | nil => exact Or.inr (Or.inl rfl)
    | cons c cs => exact Or.inl rfl
  | cons c cs ih =>
    cases b with
    | nil => exact Or.inr (Or.inr rfl)
    | cons d ds =>
      rcases lt_trichotomy c d with h | h | h
      · exact Or.inl (by simp [strLt, h])
      · subst h
        rcases ih ds with h2 | h2 | h2
        · exact Or.inl (by simp [strLt, h2])
        · exact Or.inr (Or.inl (by rw [h2]))
        · exact Or.inr (Or.inr (by simp [strLt, h2]))
      · exact Or.inr (Or.inr (by simp [strLt, h]))

theorem strLe_total (a b : Str) : strLe a b = true ∨ strLe b a = true := by
  rcases strLt_trichotomy a b with h | h | h
  · exact Or.inl (by simp [strLe, h])
  · exact Or.inl (by simp [strLe, h])
  · exact Or.inr (by simp [strLe, h])

theorem pairLe_total (p q : Str × Str) : pairLe p q = true ∨ pairLe q p = true := by
  rcases strLt_trichotomy p.1 q.1 with h | h | h
  · exact Or.inl (by simp [pairLe, h])
  · rcases strLe_total p.2 q.2 with h2 | h2
    · exact Or.inl (by simp [pairLe, h, h2])
    · exact Or.inr (by simp [pairLe, h.symm, h2])
  · exact Or.inr (by simp [pairLe, h])

theorem chain'_insertSorted (x : Str × Str) (l : TokenMap)
    (hl : List.Chain' (fun a b => pairLe a b = true) l) :
    List.Chain' (fun a b => pairLe a b = true) (insertSorted x l) := by
  induction l with
  | nil => simp [insertSorted]
  | cons y ys ih =>
    rw [insertSorted]
    by_cases hxy : pairLe x y = true
    · rw [if_pos hxy]
      exact List.chain'_cons.mpr ⟨hxy, hl⟩
    · rw [if_neg hxy]
      have hyx : pairLe y x = true := (pairLe_total x y).resolve_left hxy
      apply List.chain'_cons'.mpr
      refine ⟨?_, ih hl.tail⟩
      intro m hm
      cases ys with
      | nil =>
        simp only [insertSorted, List.head?_cons, Option.mem_def,
          Option.some.injEq] at hm
        exact hm ▸ hyx
      | cons z zs =>
        rw [insertSorted] at hm
        by_cases hxz : pairLe x z = true
        · rw [if_pos hxz] at hm
          simp only [List.head?_cons, Option.mem_def, Option.some.injEq] at hm
          exact hm ▸ hyx
        · rw [if_neg hxz] at hm
          simp only [List.head?_cons, Option.mem_def, Option.some.injEq] at hm
          exact hm ▸ (List.chain'_cons.mp hl).1

theorem chain'_sortPairs (l : TokenMap) :
    List.Chain' (fun a b => pairLe a b = true) (sortPairs l) := by
  rw [sortPairs]
  induction l with
  | nil => simp
  | cons p t ih =>
    rw [List.foldr_cons]
    exact chain'_insertSorted p _ ih

theorem sortPairs_eq_self (l : TokenMap)
    (h : List.Chain' (fun a b => pairLe a b = true) l) : sortPairs l = l := by
  induction l with
  | nil => rfl
  | cons p t ih =>
    rw [sortPairs, List.foldr_cons,
      show List.foldr insertSorted [] t = sortPairs t from rfl, ih h.tail]
    cases t with
    | nil => rfl
    | cons q ts =>
      rw [insertSorted, if_pos (List.chain'_cons.mp h).1]

theorem perm_insertSorted (x : Str × Str) (l : TokenMap) :
    (insertSorted x l).Perm (x :: l) := by
  induction l with
  | nil => exact List.Perm.refl _
  | cons y ys ih =>
    rw [insertSorted]
    by_cases hxy : pairLe x y = true
    · rw [if_pos hxy]
    · rw [if_neg hxy]
      exact (ih.cons y).trans (List.Perm.swap x y ys)

theorem perm_sortPairs (l : TokenMap) : (sortPairs l).Perm l := by
  induction l with
  | nil => exact List.Perm.refl _
  | cons p t ih =>
    rw [sortPairs, List.foldr_cons,
      show List.foldr insertSorted [] t = sortPairs t from rfl]
    exact (perm_insertSorted p (sortPairs t)).trans (ih.cons p)

/-! ## Parse/serialize round-trip lemmas -/

theorem charOk_parts (s : Str) (h : charOk s = true) :
    ¬ ':' ∈ s ∧ ¬ ';' ∈ s ∧ ¬ ',' ∈ s ∧ ¬ '\n' ∈ s := by
  rw [charOk, Bool.and_eq_true, Bool.and_eq_true, Bool.and_eq_true,
    Bool.not_eq_true', Bool.not_eq_true', Bool.not_eq_true', Bool.not_eq_true'] at h
  exact ⟨not_mem_of_contains_false s ':' h.1.1.1,
    not_mem_of_contains_false s ';' h.1.1.2,
    not_mem_of_contains_false s ',' h.1.2,
    not_mem_of_contains_false s '\n' h.2⟩

theorem ne_nil_of_isEmpty_false (s : Str) (h : ¬ s.isEmpty = true) : s ≠ [] := by
  cases s with
  | nil => exact absurd rfl h
  | cons a t => simp

theorem isEmpty_false_of_ne_nil (s : Str) (h : s ≠ []) : s.isEmpty = false := by
  cases s with
  | nil => exact absurd rfl h
  | cons a t => rfl

theorem head?_joinWith (sep : Char) (l : Str) (ls : List Str) (h : l ≠ []) :
    (joinWith sep (l :: ls)).head? = l.head? := by
  cases ls with
  | nil => rfl
  | cons m ms =>
    rw [joinWith_cons sep l (m :: ms) (by simp), head?_append_ne_nil _ _ h]

theorem mem_joinWith (sep : Char) (L : List Str) (c : Char)
    (hc : c ∈ joinWith sep L) : c = sep ∨ ∃ l ∈ L, c ∈ l := by
  induction L with
  | nil => cases hc
  | cons l ls ih =>
    cases ls with
    | nil => exact Or.inr ⟨l, List.mem_cons_self _ _, hc⟩
    | cons m ms =>
      rw [joinWith_cons sep l (m :: ms) (by simp)] at hc
      rcases List.mem_append.mp hc with h | h
      · exact Or.inr ⟨l, List.mem_cons_self _ _, h⟩
      · rcases List.mem_cons.mp h with h | h
        · exact Or.inl h
        · rcases ih h with h2 | ⟨x, hx, h2⟩
          · exact Or.inl h2
          · exact Or.inr ⟨x, List.mem_cons_of_mem _ hx, h2⟩

theorem replaceDelims_eq_self (s : Str) (h : ∀ c ∈ s, ¬ c = '\n' ∧ ¬ c = ',') :
    replaceDelims s = s := by
  induction s with
  | nil => rfl
  | cons c cs ih =>
    have hc := h c (List.mem_cons_self _ _)
    have hrest := ih fun d hd => h d (List.mem_cons_of_mem _ hd)
    rw [replaceDelims] at hrest ⊢
    rw [List.map_cons, if_neg hc.1, if_neg hc.2, hrest]

theorem pstrip_token_entry (n v : Str) (hnne : n ≠ []) (hvne : v ≠ [])
    (hnps : pstrip n = n) (hvps : pstrip v = v) :
    pstrip (n ++ ':' :: v) = n ++ ':' :: v := by
  apply pstrip_eq_self
  · intro c hc
    rw [head?_append_ne_nil n _ hnne] at hc
    exact pstrip_head_not_space n hnps c hc
  · intro c hc
    rw [getLast?_append_ne_nil n _ (by simp), getLast?_cons_ne_nil ':' v hvne] at hc
    exact pstrip_last_not_space v hvps c hc

theorem insertA_not_mem (tokens : TokenMap) (n v : Str)
    (h : ¬ n ∈ tokens.map Prod.fst) : insertA tokens n v = tokens ++ [(n, v)] := by
  induction tokens with
  | nil => rfl
  | cons p t ih =>
    rcases p with ⟨k, w⟩
    have hk : ¬ k = n := fun hc => h (by rw [List.map_cons]; exact hc ▸ List.mem_cons_self _ _)
    rw [insertA, if_neg hk, List.cons_append,
      ih fun hc => h (by rw [List.map_cons]; exact List.mem_cons_of_mem _ hc)]

theorem parseEntries_clean (L : TokenMap) (acc : TokenMap) (counter : Nat)
    (hvalid : ∀ p ∈ L, ¬ p.1.isEmpty = true ∧ ¬ p.2.isEmpty = true ∧
      pstrip p.1 = p.1 ∧ pstrip p.2 = p.2 ∧ charOk p.1 = true ∧ charOk p.2 = true)
    (hdisj : ∀ p ∈ L, ¬ p.1 ∈ acc.map Prod.fst)
    (hnodup : (L.map Prod.fst).Nodup) :
    parseEntries (L.map (fun p => p.1 ++ ':' :: p.2)) acc counter = acc ++ L := by
  induction L generalizing acc counter with
  | nil => simp [parseEntries]
  | cons p t ih =>
    obtain ⟨hnne, hvne, hnps, hvps, hcn, hcv⟩ := hvalid p (List.mem_cons_self _ _)
    have hnnil : p.1 ≠ [] := ne_nil_of_isEmpty_false _ hnne
    have hvnil : p.2 ≠ [] := ne_nil_of_isEmpty_false _ hvne
    have hcolon : ¬ ':' ∈ p.1 := (charOk_parts p.1 hcn).1
    have hentry : pstrip (p.1 ++ ':' :: p.2) = p.1 ++ ':' :: p.2 :=
      pstrip_token_entry p.1 p.2 hnnil hvnil hnps hvps
    rw [List.map_cons, parseEntries]
    simp only [hentry]
    rw [if_neg (by
      rw [isEmpty_false_of_ne_nil _ (by simp [hnnil] : p.1 ++ ':' :: p.2 ≠ [])]
      simp)]
    rw [if_pos (contains_true_of_mem _ ':'
      (List.mem_append.mpr (Or.inr (List.mem_cons_self _ _))))]
    rw [takeWhile_ne_append ':' p.1 p.2 hcolon, dropWhile_ne_append ':' p.1 p.2 hcolon]
    simp only [List.tail_cons, hnps, hvps]
    rw [if_pos (by simp [hnne, hvne] : (!p.1.isEmpty && !p.2.isEmpty) = true)]
    rw [insertA_not_mem acc p.1 p.2 (hdisj p (List.mem_cons_self _ _))]
    have hnodup2 : (t.map Prod.fst).Nodup := (List.nodup_cons.mp hnodup).2
    have hnotin : ¬ p.1 ∈ t.map Prod.fst := (List.nodup_cons.mp hnodup).1
    rw [ih (acc ++ [p]) counter
      (fun q hq => hvalid q (List.mem_cons_of_mem _ hq))
      (fun q hq => by
        rw [List.map_append]
        intro hc
        rcases List.mem_append.mp hc with h2 | h2
        · exact hdisj q (List.mem_cons_of_mem _ hq) h2
        · simp only [List.map_cons, List.map_nil, List.mem_singleton] at h2
          exact hnotin (h2 ▸ List.mem_map_of_mem Prod.fst hq))
      hnodup2]
    simp

/-- Claim C4, counterexample: a TokenSet whose single value carries a
trailing space contains no delimiter character at all, yet
`serialize(parse(serialize(S)))` differs from `serialize(S)`, because the
parser strips entry whitespace. -/
theorem C4_counterexample :
    tokenSetCE.all (fun p => charOk p.1 && charOk p.2) = true ∧
    ¬ serializeTokens (_load_tokens_text (serializeTokens tokenSetCE))
      = serializeTokens tokenSetCE := by
  refine ⟨by decide, by decide⟩

/-- Claim C4 (amended): for a TokenSet whose names and values are nonempty,
whitespace-trimmed, and free of all four parser delimiters (`:`, `;`, `,`,
newline), with pairwise distinct names,
`serialize(parse(serialize(S))) = serialize(S)`. -/
theorem C4_roundtrip (S : TokenMap)
    (hvalid : ∀ p ∈ S, ¬ p.1.isEmpty = true ∧ ¬ p.2.isEmpty = true ∧
      pstrip p.1 = p.1 ∧ pstrip p.2 = p.2 ∧ charOk p.1 = true ∧ charOk p.2 = true)
    (hnodup : (S.map Prod.fst).Nodup) :
    serializeTokens (_load_tokens_text (serializeTokens S)) = serializeTokens S := by
  have hperm := perm_sortPairs S
  have hvalidL : ∀ p ∈ sortPairs S, ¬ p.1.isEmpty = true ∧ ¬ p.2.isEmpty = true ∧
      pstrip p.1 = p.1 ∧ pstrip p.2 = p.2 ∧ charOk p.1 = true ∧ charOk p.2 = true :=
    fun p hp => hvalid p (hperm.mem_iff.mp hp)
  have hnodupL : ((sortPairs S).map Prod.fst).Nodup :=
    ((hperm.map Prod.fst).nodup_iff).mpr hnodup
  cases hL : sortPairs S with
  | nil =>
    have hS : serializeTokens S = [] := by
      rw [serializeTokens, hL]
      rfl
    rw [hS]
    rfl
  | cons p t =>
    obtain ⟨hnne, hvne, hnps, hvps, hcn, hcv⟩ :=
      hvalidL p (hL ▸ List.mem_cons_self _ _)
    have hnnil : p.1 ≠ [] := ne_nil_of_isEmpty_false _ hnne
    -- the serialized text and its basic shape
    have hser : serializeTokens S
        = joinWith ';' ((p :: t).map (fun q => q.1 ++ ':' :: q.2)) := by
      rw [serializeTokens, hL]
    have hhead : (joinWith ';' ((p :: t).map (fun q => q.1 ++ ':' :: q.2))).head?
        = p.1.head? := by
      rw [List.map_cons, head?_joinWith ';' _ _ (by simp [hnnil]),
        head?_append_ne_nil _ _ hnnil]
    have hlastpair : ∃ q, (p :: t).getLast? = some q ∧ q ∈ p :: t := by
      refine ⟨(p :: t).getLast (by simp), List.getLast?_eq_getLast _ _, ?_⟩
      exact List.getLast_mem _
    obtain ⟨q, hq, hqmem⟩ := hlastpair
    obtain ⟨hqnne, hqvne, hqnps, hqvps, hqcn, hqcv⟩ := hvalidL q (hL ▸ hqmem)
    have hqvnil : q.2 ≠ [] := ne_nil_of_isEmpty_false _ hqvne
    have hlast : (joinWith ';' ((p :: t).map (fun r => r.1 ++ ':' :: r.2))).getLast?
        = q.2.getLast? := by
      rw [getLast?_joinWith ';' _ (q.1 ++ ':' :: q.2)
        (by rw [List.getLast?_map, hq]; rfl) (by simp),
        getLast?_append_ne_nil _ _ (by simp), getLast?_cons_ne_nil ':' q.2 hqvnil]
    -- the text is strip-invariant, nonempty, delimiter-replacement-invariant
    have htxtstrip : pstrip (joinWith ';' ((p :: t).map (fun r => r.1 ++ ':' :: r.2)))
        = joinWith ';' ((p :: t).map (fun r => r.1 ++ ':' :: r.2)) := by
      apply pstrip_eq_self
      · intro c hc
        rw [hhead] at hc
        exact pstrip_head_not_space p.1 hnps c hc
      · intro c hc
        rw [hlast] at hc
        exact pstrip_last_not_space q.2 hqvps c hc
    have htxtne : joinWith ';' ((p :: t).map (fun r => r.1 ++ ':' :: r.2)) ≠ [] := by
      intro hcontra
      rw [hcontra] at hhead
      cases hn : p.1 with
      | nil => exact hnnil hn
      | cons a b => rw [hn] at hhead; cases hhead
    have hnoNLcomma : ∀ c ∈ joinWith ';' ((p :: t).map (fun r => r.1 ++ ':' :: r.2)),
        ¬ c = '\n' ∧ ¬ c = ',' := by
      intro c hc
      rcases mem_joinWith ';' _ c hc with h | ⟨l, hl, hcl⟩
      · subst h; exact ⟨by decide, by decide⟩
      · obtain ⟨r, hr, hrl⟩ := List.mem_map.mp hl
        obtain ⟨_, _, _, _, hcn2, hcv2⟩ := hvalidL r (hL ▸ hr)
        subst hrl
        rcases List.mem_append.mp hcl with h2 | h2
        · exact ⟨fun hcc => (charOk_parts r.1 hcn2).2.2.2 (hcc ▸ h2),
            fun hcc => (charOk_parts r.1 hcn2).2.2.1 (hcc ▸ h2)⟩
        · rcases List.mem_cons.mp h2 with h3 | h3
          · subst h3; exact ⟨by decide, by decide⟩
          · exact ⟨fun hcc => (charOk_parts r.2 hcv2).2.2.2 (hcc ▸ h3),
              fun hcc => (charOk_parts r.2 hcv2).2.2.1 (hcc ▸ h3)⟩
    have hsplit : splitOnC ';' (joinWith ';' ((p :: t).map (fun r => r.1 ++ ':' :: r.2)))
        = (p :: t).map (fun r => r.1 ++ ':' :: r.2) := by
      apply splitOnC_joinWith ';' _ (by simp)
      intro l hl c hcl hc
      obtain ⟨r, hr, hrl⟩ := List.mem_map.mp hl
      obtain ⟨_, _, _, _, hcn2, hcv2⟩ := hvalidL r (hL ▸ hr)
      subst hrl
      subst hc
      rcases List.mem_append.mp hcl with h2 | h2
      · exact (charOk_parts r.1 hcn2).2.1 h2
      · rcases List.mem_cons.mp h2 with h3 | h3
        · cases h3
        · exact (charOk_parts r.2 hcv2).2.1 h3
    -- parsing the serialized text recovers the sorted list
    have hparse : _load_tokens_text (serializeTokens S) = p :: t := by
      rw [hser, _load_tokens_text]
      simp only [htxtstrip]
      rw [if_neg (by rw [isEmpty_false_of_ne_nil _ htxtne]; simp),
        replaceDelims_eq_self _ hnoNLcomma, hsplit,
        parseEntries_clean (p :: t) [] 1 (fun r hr => hvalidL r (hL ▸ hr))
          (fun r hr => by simp) (hL ▸ hnodupL),
        List.nil_append]
    rw [hparse, serializeTokens,
      sortPairs_eq_self (p :: t) (hL ▸ chain'_sortPairs S), ← hL, ← serializeTokens]

/-- Claim C4, witness instantiation (a two-entry set, given unsorted). -/
theorem C4_witness :
    serializeTokens (_load_tokens_text (serializeTokens
        [(['b'], ['2']), (['a'], ['1'])]))
      = serializeTokens [(['b'], ['2']), (['a'], ['1'])] :=
  C4_roundtrip [(['b'], ['2']), (['a'], ['1'])] (by decide) (by decide)

/-! ## Numeric generation: decimal names and the bump loop -/

theorem digitChar_val (d : Nat) (h : d < 10) : (digitChar d).toNat - 48 = d := by
  interval_cases d <;> decide

theorem digitsVal_append (l : Str) (c : Char) :
    digitsVal (l ++ [c]) = (digitsVal l) * 10 + (c.toNat - 48) := by
  rw [digitsVal, digitsVal, List.foldl_append]
  rfl

theorem digitsVal_natDigits (n : Nat) : digitsVal (natDigits n) = n := by
  induction n using Nat.strong_induction_on with
  | _ n ih =>
    rw [natDigits]
    by_cases h : n < 10
    · rw [dif_pos h]
      show digitsVal [digitChar n] = n
      have : digitsVal [digitChar n] = 0 * 10 + ((digitChar n).toNat - 48) := rfl
      rw [this, digitChar_val n h]
      omega
    · rw [dif_neg h, digitsVal_append,
        ih (n / 10) (Nat.div_lt_self (by omega) (by omega)),
        digitChar_val (n % 10) (Nat.mod_lt n (by omega))]
      omega

theorem natDigits_inj (a b : Nat) (h : natDigits a = natDigits b) : a = b := by
  have ha := digitsVal_natDigits a
  rw [h, digitsVal_natDigits b] at ha
  exact ha.symm

theorem genName_inj (a b : Nat) (h : genName a = genName b) : a = b := by
  rw [genName, genName] at h
  exact natDigits_inj a b (List.append_cancel_left h)

theorem bumpSuffix_spec (names : List Str) (fuel : Nat) :
    ∀ s, (∃ t, s ≤ t ∧ t < s + fuel ∧ ¬ genName t ∈ names) →
    ¬ genName (bumpSuffix names fuel s) ∈ names ∧
    s ≤ bumpSuffix names fuel s ∧
    ∀ u, s ≤ u → u < bumpSuffix names fuel s → genName u ∈ names := by
  induction fuel with
  | zero =>
    intro s hex
    obtain ⟨t, h1, h2, _⟩ := hex
    exact absurd h1 (by omega)
  | succ fuel ih =>
    intro s hex
    rw [bumpSuffix]
    by_cases hs : genName s ∈ names
    · rw [if_pos hs]
      have hex2 : ∃ t, s + 1 ≤ t ∧ t < s + 1 + fuel ∧ ¬ genName t ∈ names := by
        obtain ⟨t, h1, h2, h3⟩ := hex
        refine ⟨t, ?_, by omega, h3⟩
        rcases Nat.eq_or_lt_of_le h1 with he | hl
        · exact absurd (he ▸ hs) h3
        · omega
      obtain ⟨f1, f2, f3⟩ := ih (s + 1) hex2
      refine ⟨f1, by omega, ?_⟩
      intro u hu1 hu2
      rcases Nat.eq_or_lt_of_le hu1 with he | hl
      · exact he ▸ hs
      · exact f3 u (by omega) hu2
    · rw [if_neg hs]
      exact ⟨hs, Nat.le_refl s, fun u h1 h2 => absurd (Nat.lt_of_le_of_lt h1 h2) (by omega)⟩

theorem exists_free_suffix (names : List Str) (s : Nat) :
    ∃ t, s ≤ t ∧ t < s + (names.length + 1) ∧ ¬ genName t ∈ names := by
  by_contra hcon
  push_neg at hcon
  have hsub : (Finset.range (names.length + 1)).image (fun i => genName (s + i))
      ⊆ names.toFinset := by
    intro x hx
    rw [Finset.mem_image] at hx
    obtain ⟨i, hi, hxi⟩ := hx
    rw [Finset.mem_range] at hi
    rw [List.mem_toFinset]
    exact hxi ▸ hcon (s + i) (by omega) (by omega)
  have hcard := Finset.card_le_card hsub
  rw [Finset.card_image_of_injective _ (fun a b hab => by
    have := genName_inj (s + a) (s + b) hab
    omega)] at hcard
  rw [Finset.card_range] at hcard
  have := List.toFinset_card_le names
  omega

/-- `firstFree names s` returns exactly the suffix at which the Python
`while name in tokens` loop stops: the least free suffix at or above `s`. -/
theorem firstFree_spec (names : List Str) (s : Nat) :
    ¬ genName (firstFree names s) ∈ names ∧ s ≤ firstFree names s ∧
    ∀ u, s ≤ u → u < firstFree names s → genName u ∈ names := by
  rw [firstFree]
  exact bumpSuffix_spec names (names.length + 1) s (exists_free_suffix names s)

theorem firstFree_unique (names : List Str) (s x : Nat)
    (hfree : ¬ genName x ∈ names) (hge : s ≤ x)
    (hmin : ∀ u, s ≤ u → u < x → genName u ∈ names) :
    firstFree names s = x := by
  obtain ⟨f1, f2, f3⟩ := firstFree_spec names s
  rcases Nat.lt_trichotomy (firstFree names s) x with h | h | h
  · exact absurd (hmin _ f2 h) f1
  · exact h
  · exact absurd (f3 x hge h) hfree

theorem freeSeq_free (names : List Str) (i : Nat) :
    ¬ genName (freeSeq names i) ∈ names := by
  cases i with
  | zero => exact (firstFree_spec names 1).1
  | succ j => exact (firstFree_spec names (freeSeq names j + 1)).1

theorem freeSeq_lt_succ (names : List Str) (i : Nat) :
    freeSeq names i < freeSeq names (i + 1) := by
  have := (firstFree_spec names (freeSeq names i + 1)).2.1
  rw [freeSeq]
  omega

theorem freeSeq_ge (names : List Str) (i : Nat) : i + 1 ≤ freeSeq names i := by
  induction i with
  | zero => exact (firstFree_spec names 1).2.1
  | succ j ih =>
    have := freeSeq_lt_succ names j
    omega

theorem freeSeq_mono (names : List Str) (i j : Nat) (h : i < j) :
    freeSeq names i < freeSeq names j := by
  induction j with
  | zero => omega
  | succ j ih =>
    rcases Nat.lt_succ_iff_lt_or_eq.mp h with h2 | h2
    · exact Nat.lt_trans (ih h2) (freeSeq_lt_succ names j)
    · exact h2 ▸ freeSeq_lt_succ names j

/-- Every free suffix below `freeSeq names i` is one of the first `i`
elements of the enumeration. -/
theorem freeSeq_complete (names : List Str) (t i : Nat) (h1 : 1 ≤ t)
    (hfree : ¬ genName t ∈ names) (hlt : t < freeSeq names i) :
    ∃ j, j < i ∧ t = freeSeq names j := by
  induction i with
  | zero =>
    rw [freeSeq] at hlt
    exact absurd ((firstFree_spec names 1).2.2 t h1 hlt) hfree
  | succ i ih =>
    rcases Nat.lt_trichotomy t (freeSeq names i) with h2 | h2 | h2
    · obtain ⟨j, hj, he⟩ := ih h2
      exact ⟨j, by omega, he⟩
    · exact ⟨i, by omega, h2⟩
    · rw [freeSeq] at hlt
      exact absurd ((firstFree_spec names (freeSeq names i + 1)).2.2 t
        (by omega) hlt) hfree

/-- At iteration `idx` of the numeric generation loop (having already
taken the first `idx` enumerated free suffixes), the bump loop started at
`idx + 1` lands exactly on the `idx`-th smallest free suffix. -/
theorem firstFree_chosen (names0 : List Str) (idx : Nat) :
    firstFree (names0 ++ (List.range idx).map (fun j => genName (freeSeq names0 j)))
        (idx + 1)
      = freeSeq names0 idx := by
  apply firstFree_unique
  · intro hmem
    rcases List.mem_append.mp hmem with h | h
    · exact freeSeq_free names0 idx h
    · obtain ⟨j, hj, he⟩ := List.mem_map.mp h
      rw [List.mem_range] at hj
      have hje := genName_inj _ _ he
      have := freeSeq_mono names0 j idx hj
      omega
  · exact freeSeq_ge names0 idx
  · intro u hu1 hu2
    by_cases hufree : genName u ∈ names0
    · exact List.mem_append.mpr (Or.inl hufree)
    · obtain ⟨j, hj, he⟩ := freeSeq_complete names0 u idx (by omega) hufree hu2
      exact List.mem_append.mpr (Or.inr
        (List.mem_map.mpr ⟨j, List.mem_range.mpr hj, by rw [he]⟩))

/-- The whole numeric generation loop, by the invariant that entering
iteration `idx` the map is the original plus the first `idx` enumerated
free suffixes: it ends with the first `count`, and reports exactly the
pairs it appended, in order. -/
theorem genNumeric_eq (vals : Nat → Str) (tokens0 : TokenMap) (count : Nat) :
    ∀ d idx, idx ≤ count → count - idx = d →
    genNumeric vals count idx (tokens0 ++ (List.range idx).map
        (fun j => (genName (freeSeq (tokens0.map Prod.fst) j), vals j)))
      = (tokens0 ++ (List.range count).map
            (fun j => (genName (freeSeq (tokens0.map Prod.fst) j), vals j)),
          (List.range' idx (count - idx)).map
            (fun j => (genName (freeSeq (tokens0.map Prod.fst) j), vals j))) := by
  intro d
  induction d with
  | zero =>
    intro idx hle hd
    have hidx : idx = count := by omega
    subst hidx
    rw [genNumeric]
    rw [dif_neg (by omega)]
    rw [Nat.sub_self]
    rfl
  | succ d ih =>
    intro idx hle hd
    have hlt : idx < count := by omega
    rw [genNumeric, dif_pos hlt]
    have hnames : (tokens0 ++ (List.range idx).map
        (fun j => (genName (freeSeq (tokens0.map Prod.fst) j), vals j))).map Prod.fst
        = tokens0.map Prod.fst ++ (List.range idx).map
            (fun j => genName (freeSeq (tokens0.map Prod.fst) j)) := by
      rw [List.map_append, List.map_map]
      rfl
    have hsfx : firstFree ((tokens0 ++ (List.range idx).map
        (fun j => (genName (freeSeq (tokens0.map Prod.fst) j), vals j))).map Prod.fst)
        (idx + 1) = freeSeq (tokens0.map Prod.fst) idx := by
      rw [hnames]
      exact firstFree_chosen (tokens0.map Prod.fst) idx
    simp only [hsfx]
    have hfresh : ¬ genName (freeSeq (tokens0.map Prod.fst) idx)
        ∈ (tokens0 ++ (List.range idx).map
          (fun j => (genName (freeSeq (tokens0.map Prod.fst) j), vals j))).map Prod.fst := by
      rw [hnames]
      intro hmem
      rcases List.mem_append.mp hmem with h | h
      · exact freeSeq_free (tokens0.map Prod.fst) idx h
      · obtain ⟨j, hj, he⟩ := List.mem_map.mp h
        rw [List.mem_range] at hj
        have hje := genName_inj _ _ he
        have := freeSeq_mono (tokens0.map Prod.fst) j idx hj
        omega
    have hins : insertA (tokens0 ++ (List.range idx).map
          (fun j => (genName (freeSeq (tokens0.map Prod.fst) j), vals j)))
          (genName (freeSeq (tokens0.map Prod.fst) idx)) (vals idx)
        = tokens0 ++ (List.range (idx + 1)).map
            (fun j => (genName (freeSeq (tokens0.map Prod.fst) j), vals j)) := by
      rw [insertA_not_mem _ _ _ hfresh, List.range_succ, List.map_append,
        List.append_assoc]
      rfl
    rw [hins, ih (idx + 1) (by omega) (by omega)]
    have hrange : List.range' idx (count - idx)
        = idx :: List.range' (idx + 1) (count - (idx + 1)) := by
      have h1 : count - idx = (count - (idx + 1)) + 1 := by omega
      rw [h1, List.range'_succ]
    rw [hrange]
    rfl

theorem foldl_insertA_fresh (pairs : TokenMap) (acc : TokenMap)
    (hfresh : ∀ p ∈ pairs, ¬ p.1 ∈ acc.map Prod.fst)
    (hnodup : (pairs.map Prod.fst).Nodup) :
    pairs.foldl (fun g p => insertA g p.1 p.2) acc = acc ++ pairs := by
  induction pairs generalizing acc with
  | nil => simp
  | cons p t ih =>
    rw [List.foldl_cons, insertA_not_mem acc p.1 p.2 (hfresh p (List.mem_cons_self _ _))]
    have hnodup2 : (t.map Prod.fst).Nodup := (List.nodup_cons.mp hnodup).2
    have hnotin : ¬ p.1 ∈ t.map Prod.fst := (List.nodup_cons.mp hnodup).1
    rw [ih (acc ++ [p]) (fun q hq => by
      rw [List.map_append]
      intro hc
      rcases List.mem_append.mp hc with h2 | h2
      · exact hfresh q (List.mem_cons_of_mem _ hq) h2
      · simp only [List.map_cons, List.map_nil, List.mem_singleton] at h2
        exact hnotin (h2 ▸ List.mem_map_of_mem Prod.fst hq)) hnodup2]
    simp

/-- Claim C5: a purely numeric generate request `item` (with value `N`)
adds exactly `N` fresh entries, appended after the existing ones (so no
existing entry is overwritten), whose names are `generated-<k>` for the
`N` smallest suffixes `k ≥ 1` unused in the starting set: the chosen
suffixes are strictly increasing, all at least 1 and unused, and every
unused suffix that was not chosen is larger than every chosen one. -/
theorem C5_generate_smallest (tokens : TokenMap) (vals : Nat → Str) (item : Str)
    (hd : pyIsDigit item = true) :
    ∃ gen : TokenMap,
      manage_tokens_core vals tokens [] [] [item] = Except.ok (tokens ++ gen, gen) ∧
      gen.length = digitsVal item ∧
      ∃ ks : List Nat, gen.map Prod.fst = ks.map genName ∧
        List.Pairwise (fun a b => a < b) ks ∧
        (∀ k ∈ ks, 1 ≤ k ∧ ¬ genName k ∈ tokens.map Prod.fst) ∧
        (∀ m : Nat, 1 ≤ m → ¬ genName m ∈ tokens.map Prod.fst → ¬ m ∈ ks →
          ∀ k ∈ ks, k < m) := by
  have hvals : (fun i => vals (0 + i)) = vals := funext fun i => by rw [Nat.zero_add]
  have hgen := genNumeric_eq vals tokens (digitsVal item) (digitsVal item) 0
    (by omega) (by omega)
  rw [List.range_zero, List.map_nil, List.append_nil, Nat.sub_zero,
    ← List.range_eq_range'] at hgen
  set pairs := (List.range (digitsVal item)).map
    (fun j => (genName (freeSeq (tokens.map Prod.fst) j), vals j)) with hpairs
  have hksnodup : (pairs.map Prod.fst).Nodup := by
    rw [hpairs, List.map_map]
    have : (Prod.fst ∘ fun j => (genName (freeSeq (tokens.map Prod.fst) j), vals j))
        = fun j => genName (freeSeq (tokens.map Prod.fst) j) := rfl
    rw [this]
    apply List.Nodup.map
    · intro a b hab
      have hfe := genName_inj _ _ hab
      rcases Nat.lt_trichotomy a b with h | h | h
      · exact absurd (freeSeq_mono (tokens.map Prod.fst) a b h) (by omega)
      · exact h
      · exact absurd (freeSeq_mono (tokens.map Prod.fst) b a h) (by omega)
    · exact List.nodup_range _
  refine ⟨pairs, ?_, ?_, (List.range (digitsVal item)).map
    (fun j => freeSeq (tokens.map Prod.fst) j), ?_, ?_, ?_, ?_⟩
  · rw [manage_tokens_core]
    simp only [processGenerate, hd, if_true, hvals, hgen]
    rw [foldl_insertA_fresh pairs [] (fun p hp => by simp) hksnodup,
      List.nil_append]
    simp only [processAdd, processRemove]
  · rw [hpairs, List.length_map, List.length_range]
  · rw [hpairs, List.map_map, List.map_map]
    rfl
  · apply List.Pairwise.map (fun j => freeSeq (tokens.map Prod.fst) j)
      (fun a b hab => freeSeq_mono (tokens.map Prod.fst) a b hab)
    exact List.pairwise_lt_range _
  · intro k hk
    obtain ⟨j, hj, he⟩ := List.mem_map.mp hk
    subst he
    exact ⟨by have := freeSeq_ge (tokens.map Prod.fst) j; omega,
      freeSeq_free (tokens.map Prod.fst) j⟩
  · intro m hm1 hmfree hmnot k hk
    obtain ⟨j, hj, he⟩ := List.mem_map.mp hk
    rw [List.mem_range] at hj
    subst he
    rcases Nat.lt_trichotomy m (freeSeq (tokens.map Prod.fst) j) with h | h | h
    · obtain ⟨j2, hj2, he2⟩ := freeSeq_complete (tokens.map Prod.fst) m j hm1 hmfree h
      exact absurd (List.mem_map.mpr ⟨j2, List.mem_range.mpr (by omega), he2.symm⟩) hmnot
    · exact absurd (List.mem_map.mpr ⟨j, List.mem_range.mpr hj, h.symm⟩) hmnot
    · exact h

/-- Claim C5, witness instantiation: the spec's own example, a set already
containing `generated-2` with a request for three tokens. -/
theorem C5_witness :
    ∃ gen : TokenMap,
      manage_tokens_core (fun i => [Char.ofNat (65 + i)]) [(genName 2, ['x'])]
          [] [] [['3']]
        = Except.ok ([(genName 2, ['x'])] ++ gen, gen) ∧
      gen.length = digitsVal ['3'] ∧
      ∃ ks : List Nat, gen.map Prod.fst = ks.map genName ∧
        List.Pairwise (fun a b => a < b) ks ∧
        (∀ k ∈ ks, 1 ≤ k ∧ ¬ genName k ∈ ([(genName 2, ['x'])] : TokenMap).map Prod.fst) ∧
        (∀ m : Nat, 1 ≤ m → ¬ genName m ∈ ([(genName 2, ['x'])] : TokenMap).map Prod.fst →
          ¬ m ∈ ks → ∀ k ∈ ks, k < m) :=
  C5_generate_smallest [(genName 2, ['x'])] (fun i => [Char.ofNat (65 + i)])
    ['3'] (by decide)

/-! ## Stack lifecycle theorems -/

theorem bootstrap_state_not_upstream (outputs : String → Option String) :
    ¬ bootstrap_state_from_outputs outputs
      = Except.error DeployErr.upstreamNotBootstrapped := by
  rw [bootstrap_state_from_outputs.eq_def]
  cases outputs "state_rg_name" with
  | none => simp
  | some rg =>
    cases outputs "state_storage_account_name" with
    | none => simp
    | some sa =>
      cases outputs "state_container_name" with
      | none => simp
      | some c =>
        cases outputs "state_blob_key" with
        | none => simp
        | some k => simp

/-- Claim C6: for every environment, invoking the workload stack's
remote-backend initialization when the bootstrap state file is absent
fails with `UpstreamNotBootstrapped`, and performs no destructive action:
the only recorded action is the existence check itself — no backend init
command runs and no variable-file or environment state is mutated. -/
theorem C6_upstream_guard (stateExists : Bool) (outputs : String → Option String)
    (h : stateExists = false) :
    workload_remote_init stateExists outputs
      = (Except.error DeployErr.upstreamNotBootstrapped, [Action.checkStateFile]) ∧
    ∀ a ∈ (workload_remote_init stateExists outputs).2, a = Action.checkStateFile := by
  subst h
  refine ⟨rfl, ?_⟩
  intro a ha
  rw [show (workload_remote_init false outputs).2 = [Action.checkStateFile] from rfl] at ha
  simpa using ha

/-- Claim C6, witness instantiation. -/
theorem C6_witness :
    workload_remote_init false (fun _ => none)
      = (Except.error DeployErr.upstreamNotBootstrapped, [Action.checkStateFile]) ∧
    ∀ a ∈ (workload_remote_init false (fun _ => none)).2,
      a = Action.checkStateFile :=
  C6_upstream_guard false (fun _ => none) rfl

theorem workload_remote_init_upstream (stateExists : Bool)
    (outputs : String → Option String)
    (h : (workload_remote_init stateExists outputs).1
      = Except.error DeployErr.upstreamNotBootstrapped) :
    stateExists = false ∧ workload_remote_init stateExists outputs
      = (Except.error DeployErr.upstreamNotBootstrapped, [Action.checkStateFile]) := by
  cases stateExists with
  | false => exact ⟨rfl, rfl⟩
  | true =>
    exfalso
    cases hb : bootstrap_state_from_outputs outputs with
    | error e =>
      have he : workload_remote_init true outputs
          = (Except.error e,
             [Action.checkStateFile, Action.setEnvVar "ARM_SUBSCRIPTION_ID",
              Action.setEnvVar "ARM_TENANT_ID", Action.runTerraformInitLocal,
              Action.runTerraformOutput]) := by
        simp only [workload_remote_init, load_bootstrap_state, if_true, hb]
      rw [he] at h
      have he2 : e = DeployErr.upstreamNotBootstrapped := by simpa using h
      exact bootstrap_state_not_upstream outputs (by rw [hb, he2])
    | ok bs =>
      have he : (workload_remote_init true outputs).1 = Except.ok bs := by
        simp only [workload_remote_init, load_bootstrap_state, if_true, hb]
      rw [he] at h
      cases h

/-- Claim C10 (implicit): in every execution of the workload deployment,
the build-and-publish step — including recording the registry endpoint and
the image reference into the variable file — runs strictly before the
check for the upstream bootstrap state file; consequently an
`UpstreamNotBootstrapped` failure surfaces only after a successful build
whose push and two variable-file writes already happened. -/
theorem C10_build_before_check (w : WorkloadWorld)
    (h : (deploy_workload w).1 = Except.error DeployErr.upstreamNotBootstrapped) :
    (∃ img, w.buildOutcome = Except.ok img ∧ w.stateExists = false ∧
      (deploy_workload w).2 = [Action.buildAndPush img,
        Action.tfvarsWrite "registry_login_server",
        Action.tfvarsWrite "container_image",
        Action.checkStateFile]) ∧
    (∀ w2 : WorkloadWorld, Action.checkStateFile ∈ (deploy_workload w2).2 →
      ∃ img2, w2.buildOutcome = Except.ok img2 ∧
        (deploy_workload w2).2.take 3 = [Action.buildAndPush img2,
          Action.tfvarsWrite "registry_login_server",
          Action.tfvarsWrite "container_image"]) := by
  constructor
  · rw [deploy_workload.eq_def] at h ⊢
    by_cases hid : w.identityOk = false
    · rw [if_pos hid] at h
      simp at h
    · rw [if_neg hid] at h ⊢
      by_cases hseed : w.seedOk = false
      · rw [if_pos hseed] at h
        simp at h
      · rw [if_neg hseed] at h ⊢
        cases hb : w.buildOutcome with
        | error e =>
          rw [hb] at h
          simp at h
        | ok img =>
          rw [hb] at h
          cases hr : workload_remote_init w.stateExists w.outputs with
          | mk res tr =>
            cases res with
            | ok bs =>
              rw [hr] at h
              simp at h
            | error e =>
              rw [hr] at h
              have he : e = DeployErr.upstreamNotBootstrapped := by simpa using h
              subst he
              obtain ⟨hsf, heq⟩ :=
                workload_remote_init_upstream w.stateExists w.outputs (by rw [hr])
              rw [hr] at heq
              have htr : tr = [Action.checkStateFile] := by
                have h2 := congrArg Prod.snd heq
                simpa using h2
              refine ⟨img, rfl, hsf, ?_⟩
              rw [htr]
              rfl
  · intro w2 hmem
    rw [deploy_workload.eq_def] at hmem ⊢
    by_cases hid : w2.identityOk = false
    · rw [if_pos hid] at hmem
      simp at hmem
    · rw [if_neg hid] at hmem ⊢
      by_cases hseed : w2.seedOk = false
      · rw [if_pos hseed] at hmem
        simp at hmem
      · rw [if_neg hseed] at hmem ⊢
        cases hb : w2.buildOutcome with
        | error e =>
          rw [hb] at hmem
          simp at hmem
        | ok img =>
          refine ⟨img, rfl, ?_⟩
          cases hr : workload_remote_init w2.stateExists w2.outputs with
          | mk res tr =>
            cases res with
            | error e => rfl
            | ok bs => rfl

/-- Claim C10, witness instantiation (successfully built image, absent
upstream state). -/
theorem C10_witness :
    (∃ img, workloadCE.buildOutcome = Except.ok img ∧
      workloadCE.stateExists = false ∧
      (deploy_workload workloadCE).2 = [Action.buildAndPush img,
        Action.tfvarsWrite "registry_login_server",
        Action.tfvarsWrite "container_image",
        Action.checkStateFile]) ∧
    (∀ w2 : WorkloadWorld, Action.checkStateFile ∈ (deploy_workload w2).2 →
      ∃ img2, w2.buildOutcome = Except.ok img2 ∧
        (deploy_workload w2).2.take 3 = [Action.buildAndPush img2,
          Action.tfvarsWrite "registry_login_server",
          Action.tfvarsWrite "container_image"]) :=
  C10_build_before_check workloadCE rfl

end AzReader
